import Mathlib

/-!
Airbirb: the availability interval model.

Shallow embedding of the date-range logic of the booking client:

* `src/pages/listingDetail/index.jsx`: `availRanges`, `disabledDate`,
  `isSelectedInsideAvail`, `nightsBetween`, `onBook` (guest side);
* `src/pages/hosted/index.jsx`: `normalizeRanges`, `onOpenPublish`,
  `addOneRange`, `removeRangeAt`, `toAvailabilityObjects`,
  `toAvailabilityFlat` (host side);
* `src/uitles/listingsUtils/index.jsx`: `isRangeCovered`;
* `src/componemts/hostComponents/index.jsx`: `getRatingAvg`,
  `enrichWithDetails`;
* `src/componemts/editPayload/index.jsx`: `sanitizeAmenities`;
* `src/componemts/hostLoad/index.jsx`: `buildSeriesFromBookings`.

Modelling conventions:

* A valid dayjs value is its timestamp in milliseconds, an `Int`.  An invalid
  dayjs value (unparseable input) is `none` of `Option Int`.
* The local time zone is taken to have a fixed offset, so every calendar day
  lasts exactly `msPerDay` milliseconds; timestamps are counted on the local
  clock, so that day boundaries are the multiples of `msPerDay`.
* `Array.prototype.sort` is stable; it is modelled by the (stable) insertion
  sort on the comparison key.
* The guest page stores a range as an object `{s, e}` and the host page as a
  two element array `[s, e]`; both are the structure `Range`.
* An ISO-8601 string is represented by the instant it denotes; host and guest
  use the same clock, and a listing is loaded with the availability objects
  that were published for it.
-/

namespace Airbirb

/-- Milliseconds in one day (dayjs `MILLISECONDS_A_DAY`). -/
def msPerDay : Int := 86400000

/-- The dayjs call `t.startOf('day')`: midnight opening the day of `t`. -/
def startOfDay (t : Int) : Int := t - t % msPerDay

/-- The dayjs call `t.endOf('day')`: last millisecond of the day of `t`. -/
def endOfDay (t : Int) : Int := startOfDay t + (msPerDay - 1)

/-- The dayjs call `t.add(1, 'day')`. -/
def addDay (t : Int) : Int := t + msPerDay

/-- The dayjs call `a.diff(b, 'day')`: the difference in milliseconds divided
by the length of a day and truncated towards zero (dayjs `absFloor`). -/
def diffDay (a b : Int) : Int := Int.tdiv (a - b) msPerDay

/-- Index of the calendar day containing `t` (days since the epoch). -/
def dayOf (t : Int) : Int := t / msPerDay

/-- A date range: `{s, e}` on the guest page, `[s, e]` on the host page. -/
structure Range where
  s : Int
  e : Int
  deriving DecidableEq

/-- One entry of `listing.availability` after `dayjs(...)` parsing of its two
fields; `none` stands for a value dayjs cannot parse (an invalid date). -/
structure RawEntry where
  start : Option Int
  stop : Option Int
  deriving DecidableEq

/-- The `map` and `filter` of `availRanges` on one entry: `s` is the start
floored to the start of its day, `e` the end raised to the end of its day; the
entry is kept when both are valid and `e.isAfter(s)`. -/
def toRange (r : RawEntry) : Option Range :=
  match r.start, r.stop with
  | some a, some b =>
    if endOfDay b > startOfDay a then some ⟨startOfDay a, endOfDay b⟩ else none
  | _, _ => none

/-- Sort key comparison of `xs.sort((a, b) => a.s.valueOf() - b.s.valueOf())`. -/
def byStart (a b : Range) : Prop := a.s ≤ b.s

instance : DecidableRel byStart := fun a b => inferInstanceAs (Decidable (a.s ≤ b.s))

instance : IsTotal Range byStart := ⟨fun a b => Int.le_total a.s b.s⟩

instance : IsTrans Range byStart := ⟨fun _ _ _ h1 h2 => Int.le_trans h1 h2⟩

/-- The stable sort by start used by both pages. -/
def sortByStart (xs : List Range) : List Range := xs.insertionSort byStart

/-- One iteration of the merge loop, shared by `availRanges` and
`normalizeRanges`: `out` is the output array so far, `r` the current range. -/
def mergeStep (out : List Range) (r : Range) : List Range :=
  match out.getLast? with
  | none => out ++ [r]
  | some last =>
    if diffDay r.s last.e ≤ 1 then
      if r.e > last.e then out.dropLast ++ [{ last with e := r.e }] else out
    else out ++ [r]

/-- The merge loop `for (const r of xs) ...` starting from `out = []`. -/
def mergeLoop (xs : List Range) : List Range := xs.foldl mergeStep []

/-- Guest side `availRanges` of `ListingDetailPage`. -/
def availRanges (raw : List RawEntry) : List Range :=
  mergeLoop (sortByStart (raw.filterMap toRange))

/-- Guest side `disabledDate`. -/
def disabledDate (avail : List Range) (d : Int) : Bool :=
  if avail.length = 0 then false
  else
    let day := startOfDay d
    !(avail.any fun r => decide (r.s ≤ day) && decide (day ≤ r.e))

/-- The value of a `RangePicker`: `null`, or a pair whose two dates may each be
`null`. -/
abbrev PickerValue := Option (Option Int × Option Int)

/-- Guest side `isSelectedInsideAvail`. -/
def isSelectedInsideAvail (dates : PickerValue) (avail : List Range) : Bool :=
  match dates with
  | some (some d0, some d1) =>
    let S := startOfDay d0
    let E := startOfDay d1
    avail.any fun r => decide (r.s ≤ S) && decide (E ≤ addDay r.e)
  | _ => true

/-- The host filter `r && r[0] && r[1]`: keeps the complete pairs. -/
def complete (r : PickerValue) : Option Range :=
  match r with
  | some (some s, some e) => some ⟨s, e⟩
  | _ => none

/-- The host map `([s, e]) => (s.isAfter(e) ? [e, s] : [s, e])`. -/
def orient (r : Range) : Range := if r.s > r.e then ⟨r.e, r.s⟩ else r

/-- Host side `normalizeRanges`. -/
def normalizeRanges (ranges : List PickerValue) : List Range :=
  mergeLoop (sortByStart ((ranges.filterMap complete).map orient))

/-- A confirmed range seen as an element of the array given to
`normalizeRanges`. -/
def ofRange (r : Range) : PickerValue := some (some r.s, some r.e)

/-- The publish state of `HostedListPage`, with the warnings shown so far. -/
structure HostState where
  pubId : Option Nat
  tempRange : PickerValue
  pubRanges : List Range
  pubOpen : Bool
  warnings : List String
  deriving DecidableEq

/-- Initial values of the `useState` hooks. -/
def initState : HostState :=
  { pubId := none, tempRange := none, pubRanges := [], pubOpen := false, warnings := [] }

/-- Host side `onOpenPublish`. -/
def onOpenPublish (id : Nat) (st : HostState) : HostState :=
  { st with pubId := some id, tempRange := none, pubRanges := [], pubOpen := true }

/-- Host side `setTempRange`. -/
def setTempRange (v : PickerValue) (st : HostState) : HostState :=
  { st with tempRange := v }

/-- Host side `addOneRange`. -/
def addOneRange (st : HostState) : HostState :=
  match st.tempRange with
  | some (some _, some _) =>
    { st with
      pubRanges := normalizeRanges (st.pubRanges.map ofRange ++ [st.tempRange])
      tempRange := none }
  | _ => { st with warnings := st.warnings ++ ["Please choose a start and end date first."] }

/-- The call `xs.filter((x, i) => p(x, i))`, indices counted from `i`. -/
def filterWithIndex {α : Type} (p : α → Nat → Bool) : List α → Nat → List α
  | [], _ => []
  | x :: xs, i =>
    if p x i then x :: filterWithIndex p xs (i + 1) else filterWithIndex p xs (i + 1)

/-- Host side `removeRangeAt`. -/
def removeRangeAt (idx : Int) (st : HostState) : HostState :=
  { st with pubRanges := filterWithIndex (fun _ i => decide ((i : Int) ≠ idx)) st.pubRanges 0 }

/-- States of the publish flow reachable from the initial state by
`onOpenPublish`, `setTempRange`, `addOneRange` and `removeRangeAt`. -/
inductive Reachable : HostState → Prop
  | init : Reachable initState
  | openPublish (id : Nat) (st : HostState) : Reachable st → Reachable (onOpenPublish id st)
  | setTemp (v : PickerValue) (st : HostState) : Reachable st → Reachable (setTempRange v st)
  | add (st : HostState) : Reachable st → Reachable (addOneRange st)
  | remove (idx : Int) (st : HostState) : Reachable st → Reachable (removeRangeAt idx st)

/-- Midnight opening day `d` of January 2025. -/
def jan2025 (d : Int) : Int := 1735689600000 + (d - 1) * msPerDay

/-- Midnight opening day `d` of January 2026. -/
def jan2026 (d : Int) : Int := 1767225600000 + (d - 1) * msPerDay

/-- The range `last` after the assignment `if (r.e.isAfter(last.e)) last.e = r.e`. -/
def absorb (last r : Range) : Range := if r.e > last.e then { last with e := r.e } else last

/-- The merge loop seen from its last output range `cur`: the ranges that the
loop leaves in `out` from `cur` on, once it has read `xs`. -/
def mergeAcc (cur : Range) : List Range → List Range
  | [] => [cur]
  | r :: rest =>
    if diffDay r.s cur.e ≤ 1 then mergeAcc (absorb cur r) rest else cur :: mergeAcc r rest

/-- The gap condition of a normalized set: each range starts at least two days
of milliseconds after every earlier range ends, and no range is reversed. -/
def Normalized (l : List Range) : Prop :=
  l.Pairwise (fun a b => a.e + 2 * msPerDay ≤ b.s) ∧ ∀ x ∈ l, x.s ≤ x.e

/-- Guest side `nightsBetween`. -/
def nightsBetween (s e : Int) : Int := max 0 (diffDay (startOfDay e) (startOfDay s))

/-- An ISO-8601 string written by `toISOString()`, represented by the instant
it denotes. -/
structure IsoString where
  ms : Int
  deriving DecidableEq

/-- The dayjs call `t.toISOString()`. -/
def toISOString (t : Int) : IsoString := ⟨t⟩

/-- The dayjs call `dayjs(x)` on an ISO-8601 string: the instant it denotes. -/
def dayjs (x : IsoString) : Option Int := some x.ms

/-- One `{ start, end }` object of the publish payload. -/
structure AvailObject where
  start : IsoString
  stop : IsoString
  deriving DecidableEq

/-- Host side `toAvailabilityObjects`. -/
def toAvailabilityObjects (ranges : List Range) : List AvailObject :=
  ranges.map fun r =>
    { start := toISOString (startOfDay r.s), stop := toISOString (endOfDay r.e) }

/-- Host side `toAvailabilityFlat`. -/
def toAvailabilityFlat (ranges : List Range) : List IsoString :=
  ranges.flatMap fun r => [toISOString (startOfDay r.s), toISOString (endOfDay r.e)]

/-- The calls `dayjs(r.start)` and `dayjs(r.end)` of `availRanges` on the
availability objects of a listing, here the objects that were published. -/
def loadAvailability (payload : List AvailObject) : List RawEntry :=
  payload.map fun o => { start := dayjs o.start, stop := dayjs o.stop }

/-- Text of `message.warning` when `onBook` finds no token. -/
def msgLogin : String := "Please log in first"

/-- Text of `message.warning` when `onBook` finds no complete selection. -/
def msgSelect : String := "Select dates"

/-- Text of `message.error` when the selection is outside the availability. -/
def msgOutside : String := "Selected dates are outside availability."

/-- Text of `message.warning` when the stay has no night. -/
def msgNights : String := "End date must be after start date."

/-- What `onBook` reads: the token, the listing id, the selected dates, the raw
availability of the listing and its nightly price (taken to be an integer). -/
structure BookState where
  token : Option String
  id : String
  dates : PickerValue
  availability : List RawEntry
  pricePerNight : Int

/-- What `onBook` does: show a message, or call `api.createBookings` with the
token, the listing id, the two ISO strings and the total price. -/
inductive BookOutcome where
  | warning (msg : String)
  | error (msg : String)
  | createBookings (token id : String) (start stop : IsoString) (total : Int)
  deriving DecidableEq

/-- Guest side `onBook`, up to the call of `api.createBookings`. -/
def onBook (st : BookState) : BookOutcome :=
  match st.token with
  | none => BookOutcome.warning msgLogin
  | some tok =>
    if tok = "" then BookOutcome.warning msgLogin
    else
      match st.dates with
      | some (some d0, some d1) =>
        if isSelectedInsideAvail st.dates (availRanges st.availability) = false then
          BookOutcome.error msgOutside
        else
          let nights := nightsBetween d0 d1
          if nights ≤ 0 then BookOutcome.warning msgNights
          else
            BookOutcome.createBookings tok st.id (toISOString d0) (toISOString d1)
              (nights * st.pricePerNight)
      | _ => BookOutcome.warning msgSelect

/-- A logged-in guest on a listing available 2026-01-10..2026-01-15 at 100 a
night, with the selection `d0`, `d1`. -/
def demoBooking (d0 d1 : Int) : BookState :=
  { token := some "t"
    id := "1"
    dates := some (some d0, some d1)
    availability := [⟨some (jan2026 10), some (jan2026 15)⟩]
    pricePerNight := 100 }

/-- Whether the calendar day of `d` lies inside some range of `avail`: the
test under the negation in `disabledDate`. -/
def inAvail (avail : List Range) (d : Int) : Bool :=
  avail.any fun r => decide (r.s ≤ startOfDay d) && decide (startOfDay d ≤ r.e)

/-- Whether the calendar day of `d` lies between the start day and the end day
(both included) of the raw entry `en`, for a valid entry. -/
def entryContainsDay (en : RawEntry) (d : Int) : Bool :=
  match toRange en with
  | some x => decide (x.s ≤ startOfDay d) && decide (startOfDay d ≤ x.e)
  | none => false

/-- The listing page filter `isRangeCovered(ranges, [s, e])` of `listingsUtils`;
`ranges = none` stands for a value that is not an array. -/
def isRangeCovered (ranges : Option (List RawEntry)) (s e : Option Int) : Bool :=
  match ranges, s, e with
  | some rs, some s, some e =>
    let S := startOfDay s
    let E := endOfDay e
    rs.any fun r =>
      match r.start, r.stop with
      | some a, some b => decide (startOfDay a ≤ S) && decide (endOfDay b ≥ E)
      | _, _ => false
  | _, _, _ => true

/-- The host picks each value of `vs` in turn and clicks Add: `setTempRange`
followed by `addOneRange`, once per value. -/
def addAll (vs : List PickerValue) (st : HostState) : HostState :=
  vs.foldl (fun acc v => addOneRange (setTempRange v acc)) st

/-- A review of a listing; `score` is `none` when the field is missing. -/
structure Review where
  score : Option Int
  deriving DecidableEq

/-- The summand `Number(b?.score || 0)` of `getRatingAvg`; `b = none` is a
`null` entry.  Scores are taken to be integers. -/
def scoreOf (b : Option Review) : Int :=
  match b with
  | some rv =>
    match rv.score with
    | some v => v
    | none => 0
  | none => 0

/-- The helper `getRatingAvg` of `hostComponents`; `reviews = none` stands for
a value that is not an array.  The quotient is the exact rational. -/
def getRatingAvg (reviews : Option (List (Option Review))) : ℚ :=
  let rs := reviews.getD []
  if rs.length = 0 then 0
  else
    let sum := rs.foldl (fun a b => a + scoreOf b) 0
    (sum : ℚ) / (rs.length : ℚ)

/-- The characters removed by `String.prototype.trim`: the white space and
line terminator code points of ECMAScript. -/
def isJsWhiteSpace (c : Char) : Bool :=
  [9, 10, 11, 12, 13, 32, 160, 5760, 8232, 8233, 8239, 8287, 12288, 65279].contains c.toNat
    || (decide (8192 ≤ c.toNat) && decide (c.toNat ≤ 8202))

/-- Removal of leading and trailing white space from a list of characters. -/
def trimChars (l : List Char) : List Char :=
  ((l.dropWhile isJsWhiteSpace).reverse.dropWhile isJsWhiteSpace).reverse

/-- The call `x.trim()`. -/
def jsTrim (s : String) : String := String.mk (trimChars s.data)

/-- An element of the raw amenities array: a string or any other value. -/
inductive JsValue where
  | str (s : String)
  | other
  deriving DecidableEq

/-- The map `(x) => (typeof x === 'string' ? x.trim() : '')`. -/
def cleanAmenity (x : JsValue) : String :=
  match x with
  | JsValue.str s => jsTrim s
  | JsValue.other => ""

/-- The call `set.add(x)` on a `Set` listed in insertion order. -/
def setAdd (acc : List String) (x : String) : List String :=
  if x ∈ acc then acc else acc ++ [x]

/-- The expression `Array.from(new Set(xs))`. -/
def arrayFromSet (xs : List String) : List String := xs.foldl setAdd []

/-- The helper `sanitizeAmenities` of `editPayload`; `raw = none` stands for a
value that is not an array. -/
def sanitizeAmenities (raw : Option (List JsValue)) : List String :=
  match raw with
  | none => []
  | some arr =>
    let cleaned := (arr.map cleanAmenity).filter (fun s => decide (s ≠ ""))
    (arrayFromSet cleaned).take 50

/-- The `metadata` object of a listing, as far as `enrichWithDetails` reads it. -/
structure Metadata where
  type : Option String
  beds : Option Int
  bathrooms : Option Int
  deriving DecidableEq

/-- The `listing` object of a detail response; `none` in a field stands for a
missing or falsy value (for `price` and `published`, a value of another type). -/
structure Listing where
  metadata : Option Metadata
  reviews : Option (List (Option Review))
  price : Option Int
  published : Option Bool
  thumbnail : Option String
  deriving DecidableEq

/-- An item of the shallow list given to `enrichWithDetails`. -/
structure Item where
  id : Nat
  metadata : Option Metadata
  reviews : Option (List (Option Review))
  price : Option Int
  published : Option Bool
  thumbnail : Option String
  type : Option String
  beds : Option Int
  bathrooms : Option Int
  deriving DecidableEq

/-- The value of `api.getListing(id).catch(() => null)`: `none` for a failed
request, otherwise the response with its `listing` field, if any. -/
abbrev DetailResponse := Option (Option Listing)

/-- The call `map.set(k, v)` on a `Map` seen as a lookup function. -/
def mapSet (m : Nat → Option Listing) (k : Nat) (v : Listing) : Nat → Option Listing :=
  fun j => if j = k then some v else m j

/-- The loop `details.forEach((d, i) => { if (d && d.listing) map.set(ids[i],
d.listing) })`, each item being paired with the outcome of its request. -/
def detailMap (reqs : List (Item × DetailResponse)) : Nat → Option Listing :=
  reqs.foldl (fun m p =>
    match p.2 with
    | some (some listing) => mapSet m p.1.id listing
    | _ => m) (fun _ => none)

/-- The object returned by `enrichWithDetails` for `item` with detail `det`. -/
def enrich (item : Item) (det : Listing) : Item :=
  { item with
    metadata := some (match det.metadata with
      | some m => m
      | none =>
        match item.metadata with
        | some m => m
        | none => { type := none, beds := none, bathrooms := none })
    reviews := some (det.reviews.getD [])
    price := match det.price with
      | some p => some p
      | none => item.price
    published := match det.published with
      | some b => some b
      | none => item.published
    thumbnail := match item.thumbnail with
      | some t => some t
      | none => det.thumbnail
    type := det.metadata.bind (fun m => m.type)
    beds := det.metadata.bind (fun m => m.beds)
    bathrooms := det.metadata.bind (fun m => m.bathrooms) }

/-- The helper `enrichWithDetails` of `hostComponents`, as a function of the
list and of the outcome of the detail request made for each of its items. -/
def enrichWithDetails (reqs : List (Item × DetailResponse)) : List Item :=
  reqs.map fun p =>
    match detailMap reqs p.1.id with
    | none => p.1
    | some det => enrich p.1 det

/-- An accepted booking as `buildSeriesFromBookings` reads it: the two dates
after `dayjs` parsing (`none` for an invalid date) and `Number(bk.totalPrice)`
when it is finite.  Amounts are taken to be integers. -/
structure Booking where
  listingId : String
  start : Option Int
  stop : Option Int
  totalPrice : Option Int
  deriving DecidableEq

/-- The statement `xs[i] += v` on an array held as a list. -/
def addAt (xs : List Int) (i : Nat) (v : Int) : List Int :=
  match xs, i with
  | [], _ => []
  | x :: t, 0 => (x + v) :: t
  | x :: t, i + 1 => x :: addAt t i v

/-- One iteration of the loop over `acceptedMine` in `buildSeriesFromBookings`:
`today` is the start of the current day. -/
def bookingStep (today : Int) (priceMap : String → Option Int) (dailyAdd : List Int)
    (bk : Booking) : List Int :=
  match bk.start, bk.stop with
  | some a, some b =>
    let s := startOfDay a
    let e := startOfDay b
    if e > s then
      let nights := max 0 (diffDay e s)
      let listedPrice := (priceMap bk.listingId).getD 0
      let total :=
        match bk.totalPrice with
        | some t => t
        | none => listedPrice * nights
      let diff := diffDay today s
      if 0 ≤ diff ∧ diff ≤ 30 then addAt dailyAdd diff.toNat total else dailyAdd
    else dailyAdd
  | _, _ => dailyAdd

/-- The loop `for (let i = 30; i >= 0; i--) { acc += dailyAdd[i];
series[i].amount = acc }`: the sums of `dailyAdd` from each index to the end. -/
def reverseCumulative (dailyAdd : List Int) : List Int :=
  dailyAdd.foldr (fun x acc => (x + acc.headD 0) :: acc) []

/-- A point `{ d, amount }` of the revenue series. -/
structure SeriesPoint where
  d : Nat
  amount : Int
  deriving DecidableEq

/-- The helper `buildSeriesFromBookings` of `hostLoad`; `now` is the current
time. -/
def buildSeriesFromBookings (now : Int) (acceptedMine : List Booking)
    (priceMap : String → Option Int) : List SeriesPoint :=
  let today := startOfDay now
  let dailyAdd := acceptedMine.foldl (bookingStep today priceMap) (List.replicate 31 0)
  List.zipWith (fun d amount => { d := d, amount := amount }) (List.range 31)
    (reverseCumulative dailyAdd)

/-- The amount that the docstring of `buildSeriesFromBookings` gives for
`series[i]`, the revenue from day `i` to today: the total of the valid accepted
bookings whose check-in day is between `i` days ago and today. -/
def revenueFromDayToToday (now : Int) (acceptedMine : List Booking)
    (priceMap : String → Option Int) (i : Nat) : Int :=
  ((acceptedMine.map fun bk =>
    match bk.start, bk.stop with
    | some a, some b =>
      if dayOf a < dayOf b ∧ dayOf now - (i : Int) ≤ dayOf a ∧ dayOf a ≤ dayOf now then
        match bk.totalPrice with
        | some t => t
        | none => (priceMap bk.listingId).getD 0 * (dayOf b - dayOf a)
      else 0
    | _, _ => 0).sum)

/-- The value of the `start` or `end` field of a raw availability entry:
absent (`undefined`), `null`, a string that dayjs cannot parse, or a date. -/
inductive JsDate where
  | missing
  | null
  | unparseable
  | date (t : Int)
  deriving DecidableEq

/-- The call `dayjs(x)` on a field of a raw entry at the time `now`:
`dayjs(undefined)` is the current time, `dayjs(null)` and an unparseable string
are invalid dates. -/
def dayjsValue (now : Int) (x : JsDate) : Option Int :=
  match x with
  | JsDate.missing => some now
  | JsDate.null => none
  | JsDate.unparseable => none
  | JsDate.date t => some t

/-- An element of the array `listing.availability`: `null` or `undefined`, or
a value with the fields `start` and `end` (for a string or a number both fields
are absent). -/
inductive JsEntry where
  | nullish
  | obj (start stop : JsDate)
  deriving DecidableEq

/-- The reads `dayjs(r.start)` and `dayjs(r.end)` of the `map` callback of
`availRanges` on one element; `none` when `r.start` throws a `TypeError`. -/
def readEntry (now : Int) (r : JsEntry) : Option RawEntry :=
  match r with
  | JsEntry.nullish => none
  | JsEntry.obj a b => some { start := dayjsValue now a, stop := dayjsValue now b }

/-- The `map` of `availRanges` over the raw array; `none` when the callback
throws on one of the elements. -/
def readEntries (now : Int) : List JsEntry → Option (List RawEntry)
  | [] => some []
  | r :: rest =>
    match readEntry now r with
    | none => none
    | some en =>
      match readEntries now rest with
      | none => none
      | some ens => some (en :: ens)

/-- The `useMemo` computing `availRanges` from the value `L.availability` at
the time `now`: `availability = none` stands for a value that is not an array,
and the result `none` for a thrown `TypeError`. -/
def availRangesOf (now : Int) (availability : Option (List JsEntry)) : Option (List Range) :=
  let raw := availability.getD []
  match readEntries now raw with
  | none => none
  | some ens => some (availRanges ens)

/-! ## The merge loop -/

theorem diffDay_le_one (a b : Int) : diffDay a b ≤ 1 ↔ a - b < 2 * msPerDay := by
  unfold diffDay
  rcases Int.le_total 0 (a - b) with h | h
  · rw [Int.tdiv_eq_ediv h (by decide)]
    unfold msPerDay
    omega
  · have h1 : 0 ≤ (-(a - b)).tdiv msPerDay := Int.tdiv_nonneg (by omega) (by decide)
    rw [Int.neg_tdiv] at h1
    unfold msPerDay at *
    omega

theorem mergeStep_concat (pre : List Range) (cur r : Range) :
    mergeStep (pre ++ [cur]) r =
      if diffDay r.s cur.e ≤ 1 then pre ++ [absorb cur r] else pre ++ [cur, r] := by
  unfold mergeStep absorb
  simp only [List.getLast?_append, List.getLast?_singleton, Option.or_some,
    List.dropLast_concat]
  by_cases h1 : diffDay r.s cur.e ≤ 1
  · by_cases h2 : r.e > cur.e <;> simp [h1, h2]
  · simp [h1]

theorem foldl_mergeStep (l : List Range) : ∀ (pre : List Range) (cur : Range),
    List.foldl mergeStep (pre ++ [cur]) l = pre ++ mergeAcc cur l := by
  induction l with
  | nil => intro pre cur; simp [mergeAcc]
  | cons r rest ih =>
    intro pre cur
    rw [List.foldl_cons, mergeStep_concat, mergeAcc]
    split_ifs with h
    · exact ih pre _
    · have := ih (pre ++ [cur]) r
      simpa using this

theorem mergeLoop_nil : mergeLoop [] = [] := rfl

theorem mergeLoop_cons (r : Range) (l : List Range) : mergeLoop (r :: l) = mergeAcc r l := by
  have := foldl_mergeStep l [] r
  simpa [mergeLoop, mergeStep] using this

theorem absorb_s (cur r : Range) : (absorb cur r).s = cur.s := by
  unfold absorb; split_ifs <;> rfl

theorem absorb_e (cur r : Range) : (absorb cur r).e = max cur.e r.e := by
  unfold absorb
  split_ifs with h
  · simp only; omega
  · omega

/-- Every output range begins no earlier than the range the loop holds, when
the input is sorted by start. -/
theorem mergeAcc_start_le (l : List Range) : ∀ (cur : Range),
    (∀ r ∈ l, cur.s ≤ r.s) → l.Sorted byStart → ∀ x ∈ mergeAcc cur l, cur.s ≤ x.s := by
  induction l with
  | nil => intro cur _ _ x hx; simp [mergeAcc] at hx; subst hx; exact le_refl _
  | cons r rest ih =>
    intro cur hle hs x hx
    have hs2 := List.sorted_cons.mp hs
    rw [mergeAcc] at hx
    split_ifs at hx with h
    · have := ih (absorb cur r) (by
        intro y hy; rw [absorb_s]; exact hle y (List.mem_cons_of_mem _ hy)) hs2.2 x hx
      rwa [absorb_s] at this
    · rcases List.mem_cons.mp hx with rfl | hx
      · exact le_refl _
      · exact le_trans (hle r (List.mem_cons_self _ _)) (ih r hs2.1 hs2.2 x hx)

/-- Provenance of an output range: its start is the start of an input range,
its end the end of an input range that ends no earlier. -/
theorem mergeAcc_mem (l : List Range) : ∀ (cur : Range), ∀ x ∈ mergeAcc cur l,
    ∃ a ∈ cur :: l, ∃ b ∈ cur :: l, x.s = a.s ∧ x.e = b.e ∧ a.e ≤ b.e := by
  induction l with
  | nil =>
    intro cur x hx
    simp [mergeAcc] at hx
    subst hx
    exact ⟨x, List.mem_cons_self _ _, x, List.mem_cons_self _ _, rfl, rfl, le_refl _⟩
  | cons r rest ih =>
    intro cur x hx
    rw [mergeAcc] at hx
    split_ifs at hx with h
    · obtain ⟨a, ha, b, hb, h1, h2, h3⟩ := ih _ x hx
      have hmax := absorb_e cur r
      have key : ∀ y ∈ absorb cur r :: rest, ∀ z ∈ absorb cur r :: rest, y.e ≤ z.e →
          ∃ a ∈ cur :: r :: rest, ∃ b ∈ cur :: r :: rest, y.s = a.s ∧ z.e = b.e ∧ a.e ≤ b.e := by
        intro y hy z hz hyz
        rcases List.mem_cons.mp hy with rfl | hy
        · rcases List.mem_cons.mp hz with rfl | hz
          · rcases le_total cur.e r.e with hc | hc
            · exact ⟨cur, by simp, r, by simp, absorb_s _ _, by rw [hmax]; omega, hc⟩
            · exact ⟨cur, by simp, cur, by simp, absorb_s _ _, by rw [hmax]; omega, le_refl _⟩
          · exact ⟨cur, by simp, z, by simp [hz], absorb_s _ _, rfl, by rw [hmax] at hyz; omega⟩
        · rcases List.mem_cons.mp hz with rfl | hz
          · rcases le_total cur.e r.e with hc | hc
            · exact ⟨y, by simp [hy], r, by simp, rfl, by rw [hmax]; omega,
                by rw [hmax] at hyz; omega⟩
            · exact ⟨y, by simp [hy], cur, by simp, rfl, by rw [hmax]; omega,
                by rw [hmax] at hyz; omega⟩
          · exact ⟨y, by simp [hy], z, by simp [hz], rfl, rfl, hyz⟩
      obtain ⟨a2, ha2, b2, hb2, e1, e2, e3⟩ := key a ha b hb h3
      exact ⟨a2, ha2, b2, hb2, h1.trans e1, h2.trans e2, e3⟩
    · rcases List.mem_cons.mp hx with rfl | hx
      · exact ⟨x, by simp, x, by simp, rfl, rfl, le_refl _⟩
      · obtain ⟨a, ha, b, hb, h1, h2, h3⟩ := ih _ x hx
        exact ⟨a, List.mem_cons_of_mem _ ha, b, List.mem_cons_of_mem _ hb, h1, h2, h3⟩

/-- On input sorted by start the loop leaves gaps of at least two days. -/
theorem mergeAcc_pairwise (l : List Range) : ∀ (cur : Range),
    (∀ r ∈ l, cur.s ≤ r.s) → l.Sorted byStart →
    (mergeAcc cur l).Pairwise (fun a b => a.e + 2 * msPerDay ≤ b.s) := by
  induction l with
  | nil => intro cur _ _; simp [mergeAcc]
  | cons r rest ih =>
    intro cur hle hs
    have hs2 := List.sorted_cons.mp hs
    rw [mergeAcc]
    split_ifs with h
    · exact ih (absorb cur r) (by
        intro y hy; rw [absorb_s]; exact hle y (List.mem_cons_of_mem _ hy)) hs2.2
    · rw [List.pairwise_cons]
      refine ⟨?_, ih r hs2.1 hs2.2⟩
      intro x hx
      have h1 := mergeAcc_start_le rest r hs2.1 hs2.2 x hx
      rw [diffDay_le_one] at h
      omega

theorem mergeLoop_mem (l : List Range) : ∀ x ∈ mergeLoop l,
    ∃ a ∈ l, ∃ b ∈ l, x.s = a.s ∧ x.e = b.e ∧ a.e ≤ b.e := by
  cases l with
  | nil => intro x hx; simp [mergeLoop] at hx
  | cons r rest => rw [mergeLoop_cons]; exact mergeAcc_mem rest r

theorem mergeLoop_pairwise (l : List Range) (hs : l.Sorted byStart) :
    (mergeLoop l).Pairwise (fun a b => a.e + 2 * msPerDay ≤ b.s) := by
  cases l with
  | nil => simp [mergeLoop]
  | cons r rest =>
    rw [mergeLoop_cons]
    have hs2 := List.sorted_cons.mp hs
    exact mergeAcc_pairwise rest r hs2.1 hs2.2

theorem sorted_sortByStart (l : List Range) : (sortByStart l).Sorted byStart :=
  List.sorted_insertionSort byStart l

theorem mem_sortByStart {l : List Range} {x : Range} : x ∈ sortByStart l ↔ x ∈ l :=
  List.mem_insertionSort byStart

/-- The merge loop after the sort yields a normalized set when no input range
is reversed. -/
theorem normalized_merge_sort (l : List Range) (h : ∀ x ∈ l, x.s ≤ x.e) :
    Normalized (mergeLoop (sortByStart l)) := by
  refine ⟨mergeLoop_pairwise _ (sorted_sortByStart l), ?_⟩
  intro x hx
  obtain ⟨a, ha, b, _, h1, h2, h3⟩ := mergeLoop_mem _ x hx
  have := h a (mem_sortByStart.mp ha)
  omega

theorem Normalized.sorted {l : List Range} (h : Normalized l) : l.Sorted byStart := by
  obtain ⟨hp, hv⟩ := h
  induction l with
  | nil => exact List.sorted_nil
  | cons a t ih =>
    rw [List.pairwise_cons] at hp
    refine List.sorted_cons.mpr ⟨?_, ih hp.2 (fun x hx => hv x (List.mem_cons_of_mem _ hx))⟩
    intro b hb
    have h1 := hp.1 b hb
    have h2 := hv a (List.mem_cons_self _ _)
    unfold byStart
    unfold msPerDay at h1
    omega

theorem mergeAcc_of_gap (l : List Range) : ∀ (cur : Range),
    (cur :: l).Pairwise (fun a b => a.e + 2 * msPerDay ≤ b.s) → mergeAcc cur l = cur :: l := by
  induction l with
  | nil => intro cur _; rfl
  | cons r rest ih =>
    intro cur hp
    rw [List.pairwise_cons] at hp
    have h1 := hp.1 r (List.mem_cons_self _ _)
    rw [mergeAcc, if_neg (by rw [diffDay_le_one]; omega), ih r hp.2]

/-- A normalized set is a fixed point of the sort followed by the merge loop. -/
theorem mergeLoop_sort_of_normalized {l : List Range} (h : Normalized l) :
    mergeLoop (sortByStart l) = l := by
  unfold sortByStart
  rw [List.Sorted.insertionSort_eq h.sorted]
  cases l with
  | nil => rfl
  | cons r rest => rw [mergeLoop_cons]; exact mergeAcc_of_gap rest r h.1

/-! ## Order independence of the merge loop -/

theorem Range.eq_of (a b : Range) (h1 : a.s = b.s) (h2 : a.e = b.e) : a = b := by
  cases a; cases b; simp only [Range.mk.injEq]; exact ⟨h1, h2⟩

theorem absorb_comm (a b : Range) (h : a.s = b.s) : absorb a b = absorb b a := by
  apply Range.eq_of
  · rw [absorb_s, absorb_s, h]
  · rw [absorb_e, absorb_e, max_comm]

theorem absorb_right_comm (c a b : Range) : absorb (absorb c a) b = absorb (absorb c b) a := by
  apply Range.eq_of
  · simp only [absorb_s]
  · simp only [absorb_e]; omega

theorem mergeAcc_cons_near (cur r : Range) (l : List Range) (h : r.s - cur.e < 2 * msPerDay) :
    mergeAcc cur (r :: l) = mergeAcc (absorb cur r) l := by
  rw [mergeAcc, if_pos ((diffDay_le_one _ _).mpr h)]

theorem mergeAcc_cons_far (cur r : Range) (l : List Range) (h : ¬ r.s - cur.e < 2 * msPerDay) :
    mergeAcc cur (r :: l) = cur :: mergeAcc r l := by
  rw [mergeAcc, if_neg (by rw [diffDay_le_one]; exact h)]

/-- Two ranges with the same start, neither reversed, may be read in either
order. -/
theorem mergeAcc_swap (cur a b : Range) (l : List Range) (h : a.s = b.s)
    (ha : a.s ≤ a.e) (hb : b.s ≤ b.e) :
    mergeAcc cur (a :: b :: l) = mergeAcc cur (b :: a :: l) := by
  have hD : (0 : Int) < 2 * msPerDay := by decide
  by_cases hc : a.s - cur.e < 2 * msPerDay
  · have hc2 : b.s - cur.e < 2 * msPerDay := by omega
    rw [mergeAcc_cons_near _ _ _ hc, mergeAcc_cons_near _ _ _ hc2,
      mergeAcc_cons_near _ _ _ (by rw [absorb_e]; omega),
      mergeAcc_cons_near _ _ _ (by rw [absorb_e]; omega), absorb_right_comm]
  · have hc2 : ¬ b.s - cur.e < 2 * msPerDay := by omega
    rw [mergeAcc_cons_far _ _ _ hc, mergeAcc_cons_far _ _ _ hc2,
      mergeAcc_cons_near _ _ _ (by omega), mergeAcc_cons_near _ _ _ (by omega),
      absorb_comm a b h]

theorem mergeAcc_cons_congr (cur r : Range) (l1 l2 : List Range)
    (h : ∀ c, mergeAcc c l1 = mergeAcc c l2) : mergeAcc cur (r :: l1) = mergeAcc cur (r :: l2) := by
  rw [mergeAcc, mergeAcc]
  split_ifs
  · exact h _
  · rw [h]

/-- A range may be moved to the front over ranges that have its start. -/
theorem mergeAcc_move_front (a : Range) (ha : a.s ≤ a.e) (v : List Range) :
    ∀ (u : List Range), (∀ x ∈ u, x.s = a.s ∧ x.s ≤ x.e) →
    ∀ cur, mergeAcc cur (u ++ a :: v) = mergeAcc cur (a :: (u ++ v)) := by
  intro u
  induction u with
  | nil => intro _ cur; rfl
  | cons x u ih =>
    intro hu cur
    have hx := hu x (List.mem_cons_self _ _)
    have ih2 := ih (fun y hy => hu y (List.mem_cons_of_mem _ hy))
    rw [List.cons_append, List.cons_append, mergeAcc_swap cur a x (u ++ v) hx.1.symm ha hx.2]
    exact mergeAcc_cons_congr cur x _ _ ih2

theorem mergeLoop_move_front (a : Range) (ha : a.s ≤ a.e) (u v : List Range)
    (hu : ∀ x ∈ u, x.s = a.s ∧ x.s ≤ x.e) :
    mergeLoop (u ++ a :: v) = mergeLoop (a :: (u ++ v)) := by
  cases u with
  | nil => rfl
  | cons x u =>
    have hx := hu x (List.mem_cons_self _ _)
    have hD : (0 : Int) < 2 * msPerDay := by decide
    rw [List.cons_append, List.cons_append, mergeLoop_cons, mergeLoop_cons,
      mergeAcc_move_front a ha v u (fun y hy => hu y (List.mem_cons_of_mem _ hy)) x,
      mergeAcc_cons_near _ _ _ (by omega), mergeAcc_cons_near _ _ _ (by omega),
      absorb_comm x a hx.1]

/-- Splitting of a sorted permutation of `a :: t`: the ranges before `a` have
the start of `a`. -/
theorem sorted_perm_split (a : Range) (t l2 : List Range) (hp : (a :: t).Perm l2)
    (hs1 : (a :: t).Sorted byStart) (hs2 : l2.Sorted byStart) :
    ∃ u v, l2 = u ++ a :: v ∧ (∀ x ∈ u, x.s = a.s) ∧ t.Perm (u ++ v) ∧
      (u ++ v).Sorted byStart := by
  have hmem : a ∈ l2 := hp.subset (List.mem_cons_self _ _)
  obtain ⟨u, v, rfl⟩ := List.append_of_mem hmem
  refine ⟨u, v, rfl, ?_, ?_, ?_⟩
  · intro x hx
    have h1 : byStart x a := by
      have := (List.pairwise_append.mp hs2).2.2 x hx a (List.mem_cons_self _ _)
      exact this
    have h2 : byStart a x := by
      have hx2 : x ∈ a :: t := hp.symm.subset (List.mem_append_left _ hx)
      rcases List.mem_cons.mp hx2 with rfl | hx2
      · exact le_refl _
      · exact (List.sorted_cons.mp hs1).1 x hx2
    unfold byStart at h1 h2
    omega
  · exact (List.perm_cons a).mp (hp.trans List.perm_middle)
  · exact hs2.sublist (List.Sublist.append (List.Sublist.refl u) (List.sublist_cons_self a v))

theorem mergeAcc_perm (l1 : List Range) : ∀ (l2 : List Range), l1.Perm l2 →
    l1.Sorted byStart → l2.Sorted byStart → (∀ x ∈ l1, x.s ≤ x.e) →
    ∀ cur, mergeAcc cur l1 = mergeAcc cur l2 := by
  induction l1 with
  | nil => intro l2 hp _ _ _ cur; rw [List.nil_perm.mp hp]
  | cons a t ih =>
    intro l2 hp hs1 hs2 hv cur
    obtain ⟨u, v, rfl, hu, hp2, hs3⟩ := sorted_perm_split a t l2 hp hs1 hs2
    have ha := hv a (List.mem_cons_self _ _)
    have hu2 : ∀ x ∈ u, x.s = a.s ∧ x.s ≤ x.e := fun x hx =>
      ⟨hu x hx, hv x (hp.symm.subset (List.mem_append_left _ hx))⟩
    rw [mergeAcc_move_front a ha v u hu2 cur]
    exact mergeAcc_cons_congr cur a _ _
      (ih (u ++ v) hp2 hs1.of_cons hs3 (fun x hx => hv x (List.mem_cons_of_mem _ hx)))

/-- The merge loop gives the same output on two sorted arrangements of the
same ranges. -/
theorem mergeLoop_perm (l1 l2 : List Range) (hp : l1.Perm l2)
    (hs1 : l1.Sorted byStart) (hs2 : l2.Sorted byStart) (hv : ∀ x ∈ l1, x.s ≤ x.e) :
    mergeLoop l1 = mergeLoop l2 := by
  cases l1 with
  | nil => rw [List.nil_perm.mp hp]
  | cons a t =>
    obtain ⟨u, v, rfl, hu, hp2, hs3⟩ := sorted_perm_split a t l2 hp hs1 hs2
    have ha := hv a (List.mem_cons_self _ _)
    have hu2 : ∀ x ∈ u, x.s = a.s ∧ x.s ≤ x.e := fun x hx =>
      ⟨hu x hx, hv x (hp.symm.subset (List.mem_append_left _ hx))⟩
    rw [mergeLoop_move_front a ha u v hu2, mergeLoop_cons, mergeLoop_cons]
    exact mergeAcc_perm t (u ++ v) hp2 hs1.of_cons hs3
      (fun x hx => hv x (List.mem_cons_of_mem _ hx)) a

/-! ## Guest side: `availRanges` -/

theorem toRange_spec {r : RawEntry} {x : Range} (h : toRange r = some x) :
    x.s % msPerDay = 0 ∧ x.e % msPerDay = msPerDay - 1 ∧ x.s < x.e := by
  unfold toRange at h
  split at h
  · split_ifs at h with hlt
    cases h
    refine ⟨?_, ?_, hlt⟩
    · simp only [startOfDay, msPerDay]; omega
    · simp only [endOfDay, startOfDay, msPerDay]; omega
  · cases h

theorem filterMap_toRange_spec (raw : List RawEntry) : ∀ x ∈ raw.filterMap toRange,
    x.s % msPerDay = 0 ∧ x.e % msPerDay = msPerDay - 1 ∧ x.s < x.e := by
  intro x hx
  obtain ⟨r, _, hr⟩ := List.mem_filterMap.mp hx
  exact toRange_spec hr

/-- Every range of `availRanges` runs from the start of a day to the end of a
later or the same day. -/
theorem availRanges_mem_spec (raw : List RawEntry) : ∀ x ∈ availRanges raw,
    x.s % msPerDay = 0 ∧ x.e % msPerDay = msPerDay - 1 ∧ x.s < x.e := by
  intro x hx
  obtain ⟨a, ha, b, hb, h1, h2, h3⟩ := mergeLoop_mem _ x hx
  have ha2 := filterMap_toRange_spec raw a (mem_sortByStart.mp ha)
  have hb2 := filterMap_toRange_spec raw b (mem_sortByStart.mp hb)
  rw [h1, h2]
  exact ⟨ha2.1, hb2.2.1, by omega⟩

theorem availRanges_normalized (raw : List RawEntry) : Normalized (availRanges raw) :=
  normalized_merge_sort _ (fun x hx => le_of_lt (filterMap_toRange_spec raw x hx).2.2)

theorem perm_availRanges_eq (raw1 raw2 : List RawEntry) (h : raw1.Perm raw2) :
    availRanges raw1 = availRanges raw2 := by
  unfold availRanges
  have hp : (raw1.filterMap toRange).Perm (raw2.filterMap toRange) := h.filterMap toRange
  have hp2 : (sortByStart (raw1.filterMap toRange)).Perm (sortByStart (raw2.filterMap toRange)) :=
    ((List.perm_insertionSort byStart _).trans hp).trans (List.perm_insertionSort byStart _).symm
  exact mergeLoop_perm _ _ hp2 (sorted_sortByStart _) (sorted_sortByStart _)
    (fun x hx => le_of_lt (filterMap_toRange_spec raw1 x (mem_sortByStart.mp hx)).2.2)

/-- C1: for every raw availability list, `availRanges` is sorted strictly
ascending by start, every range ends after it starts, and every range starts
more than one day (24 h) after each earlier range ends, so no two ranges
overlap or are adjacent. -/
theorem availRanges_sorted_separated (raw : List RawEntry) :
    (availRanges raw).Sorted (fun a b => a.s < b.s) ∧
    (∀ r ∈ availRanges raw, r.s < r.e) ∧
    (availRanges raw).Chain' (fun a b => a.e + msPerDay < b.s) ∧
    (availRanges raw).Pairwise (fun a b => a.e + msPerDay < b.s) := by
  have hn := availRanges_normalized raw
  have hm := availRanges_mem_spec raw
  have hp : (availRanges raw).Pairwise (fun a b => a.e + msPerDay < b.s) :=
    hn.1.imp (fun {a b} h => by unfold msPerDay at *; omega)
  refine ⟨?_, fun r hr => (hm r hr).2.2, hp.chain', hp⟩
  have h2 : (availRanges raw).Pairwise (fun a b => a.s ≤ a.e ∧ a.e + 2 * msPerDay ≤ b.s) :=
    hn.1.imp_of_mem (fun {a b} ha _ h => ⟨hn.2 a ha, h⟩)
  exact h2.imp (fun {a b} h => by unfold msPerDay at *; omega)

/-- C3: order independence: `availRanges` returns the same sequence of ranges
on every permutation of the raw availability list. -/
theorem availRanges_perm (raw1 raw2 : List RawEntry) (h : raw1.Perm raw2) :
    availRanges raw1 = availRanges raw2 :=
  perm_availRanges_eq raw1 raw2 h

/-- Witness of C3 on a three element list read in two orders. -/
theorem availRanges_perm_witness :
    availRanges [⟨some (jan2025 8), some (jan2025 9)⟩, ⟨some (jan2025 1), some (jan2025 3)⟩,
        ⟨some (jan2025 1), some (jan2025 2)⟩] =
      availRanges [⟨some (jan2025 1), some (jan2025 2)⟩, ⟨some (jan2025 8), some (jan2025 9)⟩,
        ⟨some (jan2025 1), some (jan2025 3)⟩] :=
  availRanges_perm _ _ (by decide)

/-- C4: the two ranges 2025-01-01..2025-01-05 and 2025-01-07..2025-01-10, two
calendar days apart with 2025-01-06 absent from both, are merged by
`availRanges` into the single range 2025-01-01..2025-01-10. -/
theorem availRanges_gap_two_days_merged :
    availRanges [⟨some (jan2025 1), some (jan2025 5)⟩, ⟨some (jan2025 7), some (jan2025 10)⟩] =
      [⟨jan2025 1, endOfDay (jan2025 10)⟩] ∧
    disabledDate (availRanges [⟨some (jan2025 1), some (jan2025 5)⟩,
      ⟨some (jan2025 7), some (jan2025 10)⟩]) (jan2025 6) = false := by
  decide

theorem availRanges_pair (a b c d : Int) (h1 : dayOf a ≤ dayOf b) (h2 : dayOf c ≤ dayOf d)
    (h3 : dayOf a ≤ dayOf c) (h4 : dayOf c ≤ dayOf b + 1) :
    availRanges [⟨some a, some b⟩, ⟨some c, some d⟩] =
      [⟨startOfDay a, max (endOfDay b) (endOfDay d)⟩] := by
  have e1 : toRange ⟨some a, some b⟩ = some ⟨startOfDay a, endOfDay b⟩ := by
    simp only [toRange]
    rw [if_pos]
    simp only [endOfDay, startOfDay, dayOf, msPerDay] at *; omega
  have e2 : toRange ⟨some c, some d⟩ = some ⟨startOfDay c, endOfDay d⟩ := by
    simp only [toRange]
    rw [if_pos]
    simp only [endOfDay, startOfDay, dayOf, msPerDay] at *; omega
  have hle : startOfDay a ≤ startOfDay c := by
    simp only [startOfDay, dayOf, msPerDay] at *; omega
  have hs : List.Sorted byStart
      [(⟨startOfDay a, endOfDay b⟩ : Range), ⟨startOfDay c, endOfDay d⟩] := by
    simp [List.Sorted, byStart, hle]
  have hnear : startOfDay c - endOfDay b < 2 * msPerDay := by
    simp only [endOfDay, startOfDay, dayOf, msPerDay] at *; omega
  unfold availRanges sortByStart
  simp only [List.filterMap_cons, List.filterMap_nil, e1, e2]
  rw [List.Sorted.insertionSort_eq hs, mergeLoop_cons, mergeAcc_cons_near _ _ _ hnear, mergeAcc]
  congr 1
  exact Range.eq_of _ _ (absorb_s _ _) (absorb_e _ _)

/-- C5: two valid ranges `a..b` and `c..d`, the second starting no earlier than
the first and at the latest on the calendar day right after the first one ends,
are merged by `availRanges`, in whichever order they are listed, into the
single range from the first start to the later of the two ends. -/
theorem availRanges_merge_adjacent (a b c d : Int) (h1 : dayOf a ≤ dayOf b)
    (h2 : dayOf c ≤ dayOf d) (h3 : dayOf a ≤ dayOf c) (h4 : dayOf c ≤ dayOf b + 1) :
    availRanges [⟨some a, some b⟩, ⟨some c, some d⟩] =
      [⟨startOfDay a, max (endOfDay b) (endOfDay d)⟩] ∧
    availRanges [⟨some c, some d⟩, ⟨some a, some b⟩] =
      [⟨startOfDay a, max (endOfDay b) (endOfDay d)⟩] := by
  refine ⟨availRanges_pair a b c d h1 h2 h3 h4, ?_⟩
  rw [perm_availRanges_eq _ _ (List.Perm.swap _ _ _)]
  exact availRanges_pair a b c d h1 h2 h3 h4

/-- Witness of C5: 2025-01-01..2025-01-05 and 2025-01-06..2025-01-10 collapse
to 2025-01-01..2025-01-10. -/
theorem availRanges_merge_adjacent_witness :
    availRanges [⟨some (jan2025 1), some (jan2025 5)⟩, ⟨some (jan2025 6), some (jan2025 10)⟩] =
      [⟨startOfDay (jan2025 1), max (endOfDay (jan2025 5)) (endOfDay (jan2025 10))⟩] ∧
    availRanges [⟨some (jan2025 6), some (jan2025 10)⟩, ⟨some (jan2025 1), some (jan2025 5)⟩] =
      [⟨startOfDay (jan2025 1), max (endOfDay (jan2025 5)) (endOfDay (jan2025 10))⟩] :=
  availRanges_merge_adjacent (jan2025 1) (jan2025 5) (jan2025 6) (jan2025 10)
    (by decide) (by decide) (by decide) (by decide)

/-! ## Guest side: coverage and calendar -/

theorem isSelectedInsideAvail_complete (ci co : Int) (avail : List Range) :
    isSelectedInsideAvail (some (some ci, some co)) avail = true ↔
      ∃ r ∈ avail, r.s ≤ startOfDay ci ∧ startOfDay co ≤ r.e + msPerDay := by
  simp [isSelectedInsideAvail, List.any_eq_true, addDay]

/-- C6: for a fully specified selection, `isSelectedInsideAvail` holds exactly
when one single range `r` of the normalized availability has
`r.s <= startOfDay checkIn` and `startOfDay checkOut <= r.e + 1 day`; in
calendar days, check-in is on or after the first day of `r` and check-out is no
later than the day after its last day.  Availability 2025-01-01..2025-01-10
covers the stay 2025-01-03..2025-01-05 and not 2025-01-09..2025-01-12. -/
theorem isSelectedInsideAvail_iff (raw : List RawEntry) (ci co : Int) :
    (isSelectedInsideAvail (some (some ci, some co)) (availRanges raw) = true ↔
      ∃ r ∈ availRanges raw, r.s ≤ startOfDay ci ∧ startOfDay co ≤ r.e + msPerDay) ∧
    (isSelectedInsideAvail (some (some ci, some co)) (availRanges raw) = true ↔
      ∃ r ∈ availRanges raw, dayOf r.s ≤ dayOf ci ∧ dayOf co ≤ dayOf r.e + 1) ∧
    isSelectedInsideAvail (some (some (jan2025 3), some (jan2025 5)))
      (availRanges [⟨some (jan2025 1), some (jan2025 10)⟩]) = true ∧
    isSelectedInsideAvail (some (some (jan2025 9), some (jan2025 12)))
      (availRanges [⟨some (jan2025 1), some (jan2025 10)⟩]) = false := by
  refine ⟨isSelectedInsideAvail_complete ci co _, ?_, by decide, by decide⟩
  rw [isSelectedInsideAvail_complete]
  constructor
  · rintro ⟨r, hr, h1, h2⟩
    have hm := availRanges_mem_spec raw r hr
    refine ⟨r, hr, ?_, ?_⟩ <;>
      (simp only [startOfDay, dayOf, msPerDay] at *; omega)
  · rintro ⟨r, hr, h1, h2⟩
    have hm := availRanges_mem_spec raw r hr
    refine ⟨r, hr, ?_, ?_⟩ <;>
      (simp only [startOfDay, dayOf, msPerDay] at *; omega)

/-- Witness of C6: a stay inside the single range 2025-01-01..2025-01-10. -/
theorem isSelectedInsideAvail_iff_witness :
    isSelectedInsideAvail (some (some (jan2025 3 + 3600000), some (jan2025 11 + 7200000)))
      (availRanges [⟨some (jan2025 1), some (jan2025 10)⟩]) = true :=
  (isSelectedInsideAvail_iff [⟨some (jan2025 1), some (jan2025 10)⟩] (jan2025 3 + 3600000)
    (jan2025 11 + 7200000)).2.1.mpr
    ⟨⟨jan2025 1, endOfDay (jan2025 10)⟩, by decide, by decide, by decide⟩

/-- C7: with an empty availability `isSelectedInsideAvail` is false for every
fully specified selection, while `disabledDate` enables every day; the check
is true only while the selection is incomplete. -/
theorem isSelectedInsideAvail_empty (ci co d : Int) :
    isSelectedInsideAvail (some (some ci, some co)) (availRanges []) = false ∧
    isSelectedInsideAvail (some (some (jan2025 3), some (jan2025 5))) [] = false ∧
    disabledDate (availRanges []) d = false ∧
    isSelectedInsideAvail none [] = true ∧
    isSelectedInsideAvail (some (some ci, none)) [] = true ∧
    isSelectedInsideAvail (some (none, some co)) [] = true := by
  refine ⟨rfl, rfl, rfl, rfl, rfl, rfl⟩

/-- C8: `disabledDate` is false for every day when the availability is empty;
otherwise it is true exactly when the start of the day lies in no range
`[r.s, r.e]`.  On the normalized availability every day from the first to the
last day of a range, both included, is enabled. -/
theorem disabledDate_spec (avail : List Range) (raw : List RawEntry) (d : Int) :
    disabledDate [] d = false ∧
    (disabledDate avail d = true ↔
      avail ≠ [] ∧ ∀ r ∈ avail, ¬ (r.s ≤ startOfDay d ∧ startOfDay d ≤ r.e)) ∧
    (∀ r ∈ availRanges raw, dayOf r.s ≤ dayOf d → dayOf d ≤ dayOf r.e →
      disabledDate (availRanges raw) d = false) := by
  have key : ∀ l : List Range, disabledDate l d = true ↔
      l ≠ [] ∧ ∀ r ∈ l, ¬ (r.s ≤ startOfDay d ∧ startOfDay d ≤ r.e) := by
    intro l
    cases l with
    | nil => simp [disabledDate]
    | cons x t =>
      simp only [disabledDate, List.length_cons, Nat.add_one_ne_zero, if_false,
        Bool.not_eq_true', List.any_eq_false, Bool.and_eq_true, decide_eq_true_eq, ne_eq,
        reduceCtorEq, not_false_eq_true, true_and]
  refine ⟨rfl, key avail, ?_⟩
  intro r hr h1 h2
  have hm := availRanges_mem_spec raw r hr
  rw [Bool.eq_false_iff]
  intro hd
  have := ((key _).mp hd).2 r hr
  apply this
  constructor <;> (simp only [startOfDay, dayOf, msPerDay] at *; omega)

/-- Witness of C8: the last day of 2025-01-01..2025-01-10 is enabled. -/
theorem disabledDate_spec_witness :
    disabledDate (availRanges [⟨some (jan2025 1), some (jan2025 10)⟩]) (jan2025 10 + 5000) =
      false :=
  (disabledDate_spec [] [⟨some (jan2025 1), some (jan2025 10)⟩] (jan2025 10 + 5000)).2.2
    ⟨jan2025 1, endOfDay (jan2025 10)⟩ (by decide) (by decide) (by decide)

/-! ## Host side: `normalizeRanges` and the publish flow -/

theorem orient_le (r : Range) : (orient r).s ≤ (orient r).e := by
  unfold orient
  split_ifs with h
  · simp only; omega
  · omega

theorem orient_of_le {r : Range} (h : r.s ≤ r.e) : orient r = r := by
  unfold orient
  rw [if_neg (by omega)]

theorem normalizeRanges_normalized (xs : List PickerValue) : Normalized (normalizeRanges xs) := by
  apply normalized_merge_sort
  intro x hx
  obtain ⟨r, _, rfl⟩ := List.mem_map.mp hx
  exact orient_le r

theorem filterMap_complete_ofRange (l : List Range) :
    (l.map ofRange).filterMap complete = l := by
  induction l with
  | nil => rfl
  | cons a t ih => simp [ofRange, complete, ih]

theorem map_orient_of_le (l : List Range) (h : ∀ x ∈ l, x.s ≤ x.e) : l.map orient = l := by
  induction l with
  | nil => rfl
  | cons a t ih =>
    rw [List.map_cons, orient_of_le (h a (List.mem_cons_self _ _)),
      ih (fun x hx => h x (List.mem_cons_of_mem _ hx))]

/-- A normalized set is left unchanged by `normalizeRanges`. -/
theorem normalizeRanges_of_normalized {l : List Range} (h : Normalized l) :
    normalizeRanges (l.map ofRange) = l := by
  unfold normalizeRanges
  rw [filterMap_complete_ofRange, map_orient_of_le l h.2, mergeLoop_sort_of_normalized h]

/-- C2: `normalizeRanges` is idempotent: normalizing its own output gives the
same pairs in the same order. -/
theorem normalizeRanges_idempotent (xs : List PickerValue) :
    normalizeRanges ((normalizeRanges xs).map ofRange) = normalizeRanges xs :=
  normalizeRanges_of_normalized (normalizeRanges_normalized xs)

theorem filterWithIndex_sublist {α : Type} (p : α → Nat → Bool) (l : List α) :
    ∀ i, (filterWithIndex p l i).Sublist l := by
  induction l with
  | nil => intro i; exact List.Sublist.refl _
  | cons x t ih =>
    intro i
    unfold filterWithIndex
    split_ifs
    · exact (ih (i + 1)).cons₂ x
    · exact (ih (i + 1)).cons x

theorem Normalized.sublist {l1 l2 : List Range} (h : Normalized l2) (hs : l1.Sublist l2) :
    Normalized l1 :=
  ⟨h.1.sublist hs, fun x hx => h.2 x (hs.subset hx)⟩

theorem normalized_nil : Normalized [] := ⟨List.Pairwise.nil, fun _ hx => by cases hx⟩

theorem reachable_normalized {st : HostState} (h : Reachable st) : Normalized st.pubRanges := by
  induction h with
  | init => exact normalized_nil
  | openPublish id st _ _ => exact normalized_nil
  | setTemp v st _ ih => exact ih
  | add st _ ih =>
    unfold addOneRange
    split
    · exact normalizeRanges_normalized _
    · exact ih
  | remove idx st _ ih => exact ih.sublist (filterWithIndex_sublist _ _ 0)

/-- C9: in every reachable state of the publish flow `pubRanges` is a
normalized interval set: no pair is reversed, the pairs are sorted ascending by
start, and each pair starts more than one day after the previous pair ends. -/
theorem pubRanges_normalized (st : HostState) (h : Reachable st) :
    (∀ p ∈ st.pubRanges, p.s ≤ p.e) ∧
    st.pubRanges.Sorted (fun a b => a.s < b.s) ∧
    st.pubRanges.Chain' (fun a b => a.e + msPerDay < b.s) := by
  have hn := reachable_normalized h
  refine ⟨hn.2, ?_, ?_⟩
  · have h2 : st.pubRanges.Pairwise (fun a b => a.s ≤ a.e ∧ a.e + 2 * msPerDay ≤ b.s) :=
      hn.1.imp_of_mem (fun {a b} ha _ h => ⟨hn.2 a ha, h⟩)
    exact h2.imp (fun {a b} h => by unfold msPerDay at *; omega)
  · exact (hn.1.imp (fun {a b} h => by unfold msPerDay at *; omega)).chain'

/-- Witness of C9: the state after opening the flow, adding two ranges and
removing the first one. -/
theorem pubRanges_normalized_witness :
    (∀ p ∈ (removeRangeAt 0 (addOneRange (setTempRange (some (some (jan2026 20), some (jan2026 17)))
      (addOneRange (setTempRange (some (some (jan2026 10), some (jan2026 12)))
        (onOpenPublish 7 initState)))))).pubRanges, p.s ≤ p.e) ∧
    (removeRangeAt 0 (addOneRange (setTempRange (some (some (jan2026 20), some (jan2026 17)))
      (addOneRange (setTempRange (some (some (jan2026 10), some (jan2026 12)))
        (onOpenPublish 7 initState)))))).pubRanges.Sorted (fun a b => a.s < b.s) ∧
    (removeRangeAt 0 (addOneRange (setTempRange (some (some (jan2026 20), some (jan2026 17)))
      (addOneRange (setTempRange (some (some (jan2026 10), some (jan2026 12)))
        (onOpenPublish 7 initState)))))).pubRanges.Chain' (fun a b => a.e + msPerDay < b.s) :=
  pubRanges_normalized _
    (Reachable.remove _ _ (Reachable.add _ (Reachable.setTemp _ _
      (Reachable.add _ (Reachable.setTemp _ _ (Reachable.openPublish _ _ Reachable.init))))))

theorem normalizeRanges_single (s e : Int) (h : s ≤ e) :
    normalizeRanges [some (some s, some e)] = [⟨s, e⟩] := by
  have := normalizeRanges_of_normalized (l := [⟨s, e⟩])
    ⟨List.pairwise_singleton _ _, by simpa using h⟩
  simpa [ofRange] using this

theorem normalizeRanges_pair (s1 e1 s2 e2 : Int) (h1 : s1 ≤ e1) (h2 : s2 ≤ e2) (h3 : s1 ≤ s2)
    (h4 : s2 - e1 < 2 * msPerDay) :
    normalizeRanges [some (some s1, some e1), some (some s2, some e2)] =
      [⟨s1, max e1 e2⟩] := by
  have hs : List.Sorted byStart [(⟨s1, e1⟩ : Range), ⟨s2, e2⟩] := by
    simp [List.Sorted, byStart, h3]
  unfold normalizeRanges sortByStart
  simp only [List.filterMap_cons, List.filterMap_nil, complete, List.map_cons, List.map_nil]
  rw [orient_of_le (r := ⟨s1, e1⟩) h1, orient_of_le (r := ⟨s2, e2⟩) h2,
    List.Sorted.insertionSort_eq hs, mergeLoop_cons, mergeAcc_cons_near _ _ _ h4, mergeAcc]
  congr 1
  exact Range.eq_of _ _ (absorb_s _ _) (absorb_e _ _)

/-- C10: from an empty confirmed set, adding the range `s1..e1` and then a
range `s2..e2` that starts on the calendar day right after the day of `e1`
leaves the single confirmed range `s1..e2`, whatever the times of day. -/
theorem addOneRange_next_day (st : HostState) (s1 e1 s2 e2 : Int) (h0 : st.pubRanges = [])
    (h1 : s1 ≤ e1) (h2 : s2 ≤ e2) (h3 : dayOf s2 = dayOf e1 + 1) :
    (addOneRange (setTempRange (some (some s2, some e2))
      (addOneRange (setTempRange (some (some s1, some e1)) st)))).pubRanges = [⟨s1, e2⟩] := by
  have hlt : e1 < s2 ∧ s2 - e1 < 2 * msPerDay := by
    simp only [dayOf, msPerDay] at *; omega
  simp only [addOneRange, setTempRange, h0, List.map_nil, List.nil_append,
    normalizeRanges_single s1 e1 h1, List.map_cons, ofRange, List.singleton_append]
  rw [normalizeRanges_pair s1 e1 s2 e2 h1 h2 (by omega) hlt.2, max_eq_right (by omega)]

/-- Witness of C10: 2026-01-10..2026-01-12 picked at 18:00 and 09:00, then
2026-01-13..2026-01-15 picked at 08:00 and 23:00. -/
theorem addOneRange_next_day_witness :
    (addOneRange (setTempRange (some (some (jan2026 13 + 28800000), some (jan2026 15 + 82800000)))
      (addOneRange (setTempRange (some (some (jan2026 10 + 64800000), some (jan2026 12 + 32400000)))
        (onOpenPublish 7 initState))))).pubRanges =
      [⟨jan2026 10 + 64800000, jan2026 15 + 82800000⟩] :=
  addOneRange_next_day (onOpenPublish 7 initState) (jan2026 10 + 64800000)
    (jan2026 12 + 32400000) (jan2026 13 + 28800000) (jan2026 15 + 82800000)
    rfl (by decide) (by decide) (by decide)

/-! ## Host side: incomplete selection and removal -/

/-- C11: when `tempRange` is null or one of its endpoints is missing,
`addOneRange` shows the warning and changes nothing else: `pubRanges`,
`tempRange`, `pubId` and `pubOpen` keep their values and no range is added. -/
theorem addOneRange_incomplete (st : HostState) (h : complete st.tempRange = none) :
    (addOneRange st).pubRanges = st.pubRanges ∧
    (addOneRange st).tempRange = st.tempRange ∧
    (addOneRange st).pubId = st.pubId ∧
    (addOneRange st).pubOpen = st.pubOpen ∧
    (addOneRange st).warnings =
      st.warnings ++ ["Please choose a start and end date first."] := by
  unfold addOneRange
  split
  · rename_i a b heq
    rw [heq] at h
    simp [complete] at h
  · exact ⟨rfl, rfl, rfl, rfl, rfl⟩

/-- Witness of C11: a selection whose end date is missing. -/
theorem addOneRange_incomplete_witness :
    (addOneRange (setTempRange (some (some (jan2026 10), none)) initState)).pubRanges =
      (setTempRange (some (some (jan2026 10), none)) initState).pubRanges ∧
    (addOneRange (setTempRange (some (some (jan2026 10), none)) initState)).tempRange =
      (setTempRange (some (some (jan2026 10), none)) initState).tempRange ∧
    (addOneRange (setTempRange (some (some (jan2026 10), none)) initState)).pubId =
      (setTempRange (some (some (jan2026 10), none)) initState).pubId ∧
    (addOneRange (setTempRange (some (some (jan2026 10), none)) initState)).pubOpen =
      (setTempRange (some (some (jan2026 10), none)) initState).pubOpen ∧
    (addOneRange (setTempRange (some (some (jan2026 10), none)) initState)).warnings =
      (setTempRange (some (some (jan2026 10), none)) initState).warnings ++
        ["Please choose a start and end date first."] :=
  addOneRange_incomplete (setTempRange (some (some (jan2026 10), none)) initState) rfl

theorem filterWithIndex_ne_outside (idx : Int) (l : List Range) : ∀ k : Nat,
    (idx < k ∨ (k : Int) + l.length ≤ idx) →
    filterWithIndex (fun _ i => decide ((i : Int) ≠ idx)) l k = l := by
  induction l with
  | nil => intro k _; rfl
  | cons x t ih =>
    intro k h
    have hk : (k : Int) ≠ idx := by
      rcases h with h | h
      · omega
      · simp only [List.length_cons, Nat.cast_add, Nat.cast_one] at h; omega
    unfold filterWithIndex
    rw [if_pos (by simpa using hk), ih (k + 1) (by
      rcases h with h | h
      · left; push_cast; omega
      · right; simp only [List.length_cons, Nat.cast_add, Nat.cast_one] at h ⊢; omega)]

theorem filterWithIndex_ne_eraseIdx (l : List Range) : ∀ (k i : Nat),
    filterWithIndex (fun _ j => decide ((j : Int) ≠ ((k + i : Nat) : Int))) l k = l.eraseIdx i := by
  induction l with
  | nil => intro k i; rfl
  | cons x t ih =>
    intro k i
    unfold filterWithIndex
    cases i with
    | zero =>
      rw [if_neg (by simp), List.eraseIdx_cons_zero]
      exact filterWithIndex_ne_outside _ t (k + 1) (Or.inl (by push_cast; omega))
    | succ i =>
      rw [if_pos (by simp; omega), List.eraseIdx_cons_succ]
      have := ih (k + 1) i
      rw [show k + 1 + i = k + (i + 1) by omega] at this
      rw [this]

theorem removeRangeAt_outside_eq (st : HostState) (idx : Int)
    (h : idx < 0 ∨ (st.pubRanges.length : Int) ≤ idx) : removeRangeAt idx st = st := by
  unfold removeRangeAt
  rw [filterWithIndex_ne_outside idx st.pubRanges 0 (by
    rcases h with h | h
    · left; simpa using h
    · right; simpa using h)]

/-- Counterexample to C12: on the confirmed set with the single range
2026-01-10..2026-01-12, `removeRangeAt 5` and `removeRangeAt (-1)` return the
state as it was, warnings included: nothing is signalled. -/
theorem removeRangeAt_outside_no_signal :
    removeRangeAt 5 { initState with pubRanges := [⟨jan2026 10, jan2026 12⟩] } =
      { initState with pubRanges := [⟨jan2026 10, jan2026 12⟩] } ∧
    removeRangeAt (-1) { initState with pubRanges := [⟨jan2026 10, jan2026 12⟩] } =
      { initState with pubRanges := [⟨jan2026 10, jan2026 12⟩] } ∧
    ¬ ((removeRangeAt 5 { initState with pubRanges := [⟨jan2026 10, jan2026 12⟩] }).warnings ≠
        ({ initState with pubRanges := [⟨jan2026 10, jan2026 12⟩] } : HostState).warnings ∧
      (removeRangeAt 5 { initState with pubRanges := [⟨jan2026 10, jan2026 12⟩] }).pubRanges =
        [⟨jan2026 10, jan2026 12⟩]) := by
  decide

/-- C12 (amended): `removeRangeAt` with an index outside `[0, length)` returns
the state unchanged: the confirmed set, `tempRange` and the warnings shown are
as before, so no failure is signalled. -/
theorem removeRangeAt_outside (st : HostState) (idx : Int)
    (h : idx < 0 ∨ (st.pubRanges.length : Int) ≤ idx) :
    removeRangeAt idx st = st ∧ (removeRangeAt idx st).pubRanges = st.pubRanges ∧
      (removeRangeAt idx st).warnings = st.warnings := by
  rw [removeRangeAt_outside_eq st idx h]
  exact ⟨rfl, rfl, rfl⟩

/-- Witness of C12 (amended): index 5 on a confirmed set of one range. -/
theorem removeRangeAt_outside_witness :
    removeRangeAt 5 { initState with pubRanges := [⟨jan2026 10, jan2026 12⟩] } =
        { initState with pubRanges := [⟨jan2026 10, jan2026 12⟩] } ∧
      (removeRangeAt 5 { initState with pubRanges := [⟨jan2026 10, jan2026 12⟩] }).pubRanges =
        ({ initState with pubRanges := [⟨jan2026 10, jan2026 12⟩] } : HostState).pubRanges ∧
      (removeRangeAt 5 { initState with pubRanges := [⟨jan2026 10, jan2026 12⟩] }).warnings =
        ({ initState with pubRanges := [⟨jan2026 10, jan2026 12⟩] } : HostState).warnings :=
  removeRangeAt_outside { initState with pubRanges := [⟨jan2026 10, jan2026 12⟩] } 5
    (Or.inr (by decide))

/-- C13: `removeRangeAt` with an index `i` inside `[0, length)` removes exactly
the range at `i`: the confirmed set becomes the ranges before `i` followed by
the ranges after `i`, unchanged and in their order, one shorter than before;
`tempRange` and the other fields are untouched. -/
theorem removeRangeAt_inside (st : HostState) (i : Nat) (h : i < st.pubRanges.length) :
    (removeRangeAt i st).pubRanges = st.pubRanges.eraseIdx i ∧
    (removeRangeAt i st).pubRanges = st.pubRanges.take i ++ st.pubRanges.drop (i + 1) ∧
    (removeRangeAt i st).pubRanges.length + 1 = st.pubRanges.length ∧
    (removeRangeAt i st).tempRange = st.tempRange ∧
    (removeRangeAt i st).pubId = st.pubId ∧
    (removeRangeAt i st).pubOpen = st.pubOpen ∧
    (removeRangeAt i st).warnings = st.warnings := by
  have e : (removeRangeAt i st).pubRanges = st.pubRanges.eraseIdx i := by
    have := filterWithIndex_ne_eraseIdx st.pubRanges 0 i
    simpa [removeRangeAt] using this
  refine ⟨e, ?_, ?_, rfl, rfl, rfl, rfl⟩
  · rw [e, List.eraseIdx_eq_take_drop_succ]
  · rw [e, List.length_eraseIdx, if_pos h]; omega

/-- Witness of C13: removing the middle one of three confirmed ranges. -/
theorem removeRangeAt_inside_witness :
    (removeRangeAt 1 { initState with
      pubRanges := [⟨jan2026 1, jan2026 2⟩, ⟨jan2026 10, jan2026 12⟩, ⟨jan2026 20, jan2026 22⟩] }
      ).pubRanges = [⟨jan2026 1, jan2026 2⟩, ⟨jan2026 20, jan2026 22⟩] :=
  (removeRangeAt_inside { initState with
      pubRanges := [⟨jan2026 1, jan2026 2⟩, ⟨jan2026 10, jan2026 12⟩, ⟨jan2026 20, jan2026 22⟩] }
    1 (by decide)).1

theorem normalizeRanges_one (s e : Int) :
    normalizeRanges [some (some s, some e)] = [orient ⟨s, e⟩] := by
  simp [normalizeRanges, complete, sortByStart, mergeLoop_cons, mergeAcc]

/-- C14: after `onOpenPublish`, adding any complete range with `addOneRange`
and then calling `removeRangeAt 0` gives the empty confirmed set again. -/
theorem add_then_remove_empty (id : Nat) (st : HostState) (s e : Int) :
    (addOneRange (setTempRange (some (some s, some e)) (onOpenPublish id st))).pubRanges =
      [orient ⟨s, e⟩] ∧
    (removeRangeAt 0
      (addOneRange (setTempRange (some (some s, some e)) (onOpenPublish id st)))).pubRanges =
      [] := by
  have e1 : (addOneRange (setTempRange (some (some s, some e))
      (onOpenPublish id st))).pubRanges = [orient ⟨s, e⟩] := by
    simp only [addOneRange, setTempRange, onOpenPublish, List.map_nil, List.nil_append]
    exact normalizeRanges_one s e
  refine ⟨e1, ?_⟩
  simp [removeRangeAt, e1, filterWithIndex]

/-! ## Guest side: nights and booking -/

theorem diffDay_startOfDay (s e : Int) :
    diffDay (startOfDay e) (startOfDay s) = dayOf e - dayOf s := by
  have h : startOfDay e - startOfDay s = (dayOf e - dayOf s) * msPerDay := by
    simp only [startOfDay, dayOf, msPerDay]; omega
  unfold diffDay
  rw [h, Int.mul_tdiv_cancel _ (by decide)]

theorem nightsBetween_eq (s e : Int) : nightsBetween s e = max 0 (dayOf e - dayOf s) := by
  unfold nightsBetween
  rw [diffDay_startOfDay]

theorem onBook_create {st : BookState} {tok id : String} {a b : IsoString} {total : Int}
    (h : onBook st = BookOutcome.createBookings tok id a b total) :
    ∃ ci co, st.dates = some (some ci, some co) ∧ 0 < nightsBetween ci co ∧
      isSelectedInsideAvail st.dates (availRanges st.availability) = true ∧
      st.token = some tok ∧ tok ≠ "" ∧ id = st.id ∧
      a = toISOString ci ∧ b = toISOString co ∧
      total = nightsBetween ci co * st.pricePerNight := by
  unfold onBook at h
  split at h
  · cases h
  · rename_i t ht
    split at h
    · cases h
    · rename_i h1
      split at h
      · rename_i ci co hd
        split at h
        · cases h
        · rename_i h2
          simp only at h
          split at h
          · cases h
          · rename_i h3
            simp only [BookOutcome.createBookings.injEq] at h
            obtain ⟨rfl, rfl, rfl, rfl, rfl⟩ := h
            exact ⟨ci, co, hd, by omega, by simpa using h2, ht, h1, rfl, rfl, rfl, rfl⟩
      · cases h

/-- C15: when the selected stay has zero or negative nights, `onBook` ends
with a message and does not call `api.createBookings`; a call of
`api.createBookings` is made only for a stay of at least one night. -/
theorem onBook_requires_nights (st : BookState) (ci co : Int)
    (hd : st.dates = some (some ci, some co)) (hn : nightsBetween ci co ≤ 0) :
    (∃ msg, onBook st = BookOutcome.warning msg ∨ onBook st = BookOutcome.error msg) ∧
    (∀ tok id a b total, onBook st ≠ BookOutcome.createBookings tok id a b total) ∧
    (∀ tok, st.token = some tok → tok ≠ "" →
      isSelectedInsideAvail st.dates (availRanges st.availability) = true →
      onBook st = BookOutcome.warning msgNights) := by
  have hno : ∀ tok id a b total, onBook st ≠ BookOutcome.createBookings tok id a b total := by
    intro tok id a b total h
    obtain ⟨ci2, co2, hd2, hpos, _⟩ := onBook_create h
    rw [hd] at hd2
    simp only [Option.some.injEq, Prod.mk.injEq] at hd2
    obtain ⟨rfl, rfl⟩ := hd2
    omega
  refine ⟨?_, hno, ?_⟩
  · cases hb : onBook st with
    | warning m => exact ⟨m, Or.inl rfl⟩
    | error m => exact ⟨m, Or.inr rfl⟩
    | createBookings tok id a b total => exact absurd hb (hno tok id a b total)
  · intro tok ht hne hin
    unfold onBook
    simp only [ht, hne, if_false, hd]
    rw [hd] at hin
    simp only [hin, Bool.true_eq_false, if_false, hn, if_true]

/-- Witness of C15: a stay whose check-out is on the check-in day. -/
theorem onBook_requires_nights_witness :
    onBook (demoBooking (jan2026 11) (jan2026 11 + 3600000)) = BookOutcome.warning msgNights :=
  (onBook_requires_nights (demoBooking (jan2026 11) (jan2026 11 + 3600000))
    (jan2026 11) (jan2026 11 + 3600000) rfl (by decide)).2.2 "t" rfl (by decide) (by decide)

/-- C16: `nightsBetween s e` is the number of calendar days from the day of
`s` to the day of `e` when that is positive and 0 otherwise; it is never
negative and depends only on the two days, not on the times of day; from
2026-01-11 to 2026-01-14 it is 3; the total that `onBook` sends is the number
of nights times the nightly price. -/
theorem nightsBetween_spec (s e s2 e2 : Int) (st : BookState) :
    nightsBetween s e = max 0 (dayOf e - dayOf s) ∧
    (dayOf s < dayOf e → nightsBetween s e = dayOf e - dayOf s) ∧
    (dayOf e ≤ dayOf s → nightsBetween s e = 0) ∧
    0 ≤ nightsBetween s e ∧
    (dayOf s2 = dayOf s → dayOf e2 = dayOf e → nightsBetween s2 e2 = nightsBetween s e) ∧
    nightsBetween (jan2026 11) (jan2026 14) = 3 ∧
    (∀ tok id a b total, onBook st = BookOutcome.createBookings tok id a b total →
      ∃ ci co, st.dates = some (some ci, some co) ∧
        total = nightsBetween ci co * st.pricePerNight) := by
  have h := nightsBetween_eq s e
  refine ⟨h, ?_, ?_, ?_, ?_, by decide, ?_⟩
  · intro hlt; rw [h]; omega
  · intro hle; rw [h]; omega
  · rw [h]; omega
  · intro h1 h2; rw [h, nightsBetween_eq, h1, h2]
  · intro tok id a b total hb
    obtain ⟨ci, co, hd, _, _, _, _, _, _, _, ht⟩ := onBook_create hb
    exact ⟨ci, co, hd, ht⟩

/-- Witness of C16: three nights at 100 a night, with times of day, are sent
as a total of 300. -/
theorem nightsBetween_spec_witness :
    nightsBetween (jan2026 11 + 72000000) (jan2026 14 + 3600000) = 14 - 11 ∧
    onBook (demoBooking (jan2026 11 + 72000000) (jan2026 14 + 3600000)) =
      BookOutcome.createBookings "t" "1" (toISOString (jan2026 11 + 72000000))
        (toISOString (jan2026 14 + 3600000)) 300 :=
  ⟨((nightsBetween_spec (jan2026 11 + 72000000) (jan2026 14 + 3600000) 0 0
      (demoBooking 0 0)).2.1
      (by decide)).trans (by decide), by decide⟩

/-! ## From the host payload to the guest check -/

/-- Every range read by the merge loop lies inside one of its output ranges,
when the input is sorted by start. -/
theorem mergeAcc_covers (l : List Range) : ∀ (cur : Range),
    (∀ r ∈ l, cur.s ≤ r.s) → l.Sorted byStart →
    ∀ x ∈ cur :: l, ∃ r ∈ mergeAcc cur l, r.s ≤ x.s ∧ x.e ≤ r.e := by
  induction l with
  | nil =>
    intro cur _ _ x hx
    rw [List.mem_singleton] at hx
    subst hx
    exact ⟨x, by simp [mergeAcc], le_refl _, le_refl _⟩
  | cons r rest ih =>
    intro cur hle hs x hx
    have hs2 := List.sorted_cons.mp hs
    have hr := hle r (List.mem_cons_self _ _)
    rw [mergeAcc]
    split_ifs with h
    · have ih2 := ih (absorb cur r) (by
        intro y hy; rw [absorb_s]; exact hle y (List.mem_cons_of_mem _ hy)) hs2.2
      have habs : ∃ q ∈ mergeAcc (absorb cur r) rest,
          q.s ≤ cur.s ∧ max cur.e r.e ≤ q.e := by
        obtain ⟨q, hq, h1, h2⟩ := ih2 (absorb cur r) (List.mem_cons_self _ _)
        rw [absorb_s] at h1
        rw [absorb_e] at h2
        exact ⟨q, hq, h1, h2⟩
      rcases List.mem_cons.mp hx with rfl | hx
      · obtain ⟨q, hq, h1, h2⟩ := habs
        exact ⟨q, hq, h1, by omega⟩
      · rcases List.mem_cons.mp hx with rfl | hx
        · obtain ⟨q, hq, h1, h2⟩ := habs
          exact ⟨q, hq, by omega, by omega⟩
        · exact ih2 x (List.mem_cons_of_mem _ hx)
    · rcases List.mem_cons.mp hx with rfl | hx
      · exact ⟨x, List.mem_cons_self _ _, le_refl _, le_refl _⟩
      · obtain ⟨q, hq, h1, h2⟩ := ih r hs2.1 hs2.2 x hx
        exact ⟨q, List.mem_cons_of_mem _ hq, h1, h2⟩

theorem mergeLoop_covers (l : List Range) (hs : l.Sorted byStart) :
    ∀ x ∈ l, ∃ r ∈ mergeLoop l, r.s ≤ x.s ∧ x.e ≤ r.e := by
  cases l with
  | nil => intro x hx; cases hx
  | cons a t =>
    rw [mergeLoop_cons]
    have hs2 := List.sorted_cons.mp hs
    exact mergeAcc_covers t a hs2.1 hs2.2

/-- Every valid entry of the raw availability lies inside one range of
`availRanges`. -/
theorem availRanges_covers (raw : List RawEntry) (en : RawEntry) (x : Range) (hen : en ∈ raw)
    (hx : toRange en = some x) : ∃ r ∈ availRanges raw, r.s ≤ x.s ∧ x.e ≤ r.e := by
  have hmem : x ∈ sortByStart (raw.filterMap toRange) :=
    mem_sortByStart.mpr (List.mem_filterMap.mpr ⟨en, hen, hx⟩)
  exact mergeLoop_covers _ (sorted_sortByStart _) x hmem

theorem toRange_published (c : Range) (h : c.s ≤ c.e) :
    toRange { start := dayjs (toISOString (startOfDay c.s)),
              stop := dayjs (toISOString (endOfDay c.e)) } =
      some ⟨startOfDay c.s, endOfDay c.e⟩ := by
  have h1 : startOfDay (startOfDay c.s) = startOfDay c.s := by
    simp only [startOfDay, msPerDay]; omega
  have h2 : endOfDay (endOfDay c.e) = endOfDay c.e := by
    simp only [endOfDay, startOfDay, msPerDay]; omega
  simp only [toRange, dayjs, toISOString, h1, h2]
  rw [if_pos]
  simp only [endOfDay, startOfDay, msPerDay]; omega

theorem published_covered (confirmed : List Range) (c : Range) (ci co : Int)
    (hc : c ∈ confirmed) (hv : c.s ≤ c.e) (h1 : dayOf c.s ≤ dayOf ci)
    (h2 : dayOf co ≤ dayOf c.e) :
    isSelectedInsideAvail (some (some ci, some co))
      (availRanges (loadAvailability (toAvailabilityObjects confirmed))) = true := by
  have hen : ({ start := dayjs (toISOString (startOfDay c.s)),
                stop := dayjs (toISOString (endOfDay c.e)) } : RawEntry) ∈
      loadAvailability (toAvailabilityObjects confirmed) := by
    unfold loadAvailability toAvailabilityObjects
    rw [List.map_map]
    exact List.mem_map.mpr ⟨c, hc, rfl⟩
  obtain ⟨r, hr, h3, h4⟩ := availRanges_covers _ _ _ hen (toRange_published c hv)
  rw [isSelectedInsideAvail_complete]
  refine ⟨r, hr, ?_, ?_⟩
  · simp only [startOfDay, dayOf, msPerDay] at *; omega
  · simp only [endOfDay, startOfDay, dayOf, msPerDay] at *; omega

/-- C17: end to end: for the confirmed set of every reachable state of the
publish flow, published through `toAvailabilityObjects` and loaded by
`availRanges`, a stay whose check-in day and check-out day both lie between the
first and the last day of one confirmed range has
`isSelectedInsideAvail = true`. -/
theorem published_stay_covered (st : HostState) (hr : Reachable st) (c : Range)
    (ci co : Int) (hc : c ∈ st.pubRanges) (h1 : dayOf c.s ≤ dayOf ci)
    (h2 : dayOf ci < dayOf co) (h3 : dayOf co ≤ dayOf c.e) :
    isSelectedInsideAvail (some (some ci, some co))
      (availRanges (loadAvailability (toAvailabilityObjects st.pubRanges))) = true ∧
    0 < nightsBetween ci co :=
  ⟨published_covered st.pubRanges c ci co hc ((reachable_normalized hr).2 c hc) h1 h3,
    by rw [nightsBetween_eq]; omega⟩

/-- Witness of C17: the host adds 2026-01-10..2026-01-12 and
2026-01-13..2026-01-15; the guest stay 2026-01-11..2026-01-14 is covered. -/
theorem published_stay_covered_witness :
    isSelectedInsideAvail (some (some (jan2026 11), some (jan2026 14)))
      (availRanges (loadAvailability (toAvailabilityObjects
        (addOneRange (setTempRange (some (some (jan2026 13), some (jan2026 15)))
          (addOneRange (setTempRange (some (some (jan2026 10), some (jan2026 12)))
            (onOpenPublish 7 initState))))).pubRanges))) = true ∧
    0 < nightsBetween (jan2026 11) (jan2026 14) :=
  published_stay_covered _
    (Reachable.add _ (Reachable.setTemp _ _
      (Reachable.add _ (Reachable.setTemp _ _ (Reachable.openPublish _ _ Reachable.init)))))
    ⟨jan2026 10, jan2026 15⟩ (jan2026 11) (jan2026 14) (by decide) (by decide) (by decide)
    (by decide)

theorem toAvailabilityFlat_getElem (rs : List Range) : ∀ i : Nat,
    (toAvailabilityFlat rs)[2 * i]? = (toAvailabilityObjects rs)[i]?.map (fun o => o.start) ∧
    (toAvailabilityFlat rs)[2 * i + 1]? =
      (toAvailabilityObjects rs)[i]?.map (fun o => o.stop) := by
  induction rs with
  | nil => intro i; simp [toAvailabilityFlat, toAvailabilityObjects]
  | cons r t ih =>
    intro i
    cases i with
    | zero => simp [toAvailabilityFlat, toAvailabilityObjects]
    | succ i =>
      have h := ih i
      simp only [toAvailabilityFlat, toAvailabilityObjects, List.flatMap_cons, List.map_cons,
        List.getElem?_cons_succ] at h ⊢
      rw [show 2 * (i + 1) = 2 * i + 1 + 1 by omega]
      simp only [List.cons_append, List.nil_append, List.getElem?_cons_succ]
      exact h

/-- C18: `toAvailabilityObjects` returns one object per confirmed range, in
order, with `start` the ISO string of the start floored to the start of its
day and `end` the ISO string of the end raised to the end of its day;
`toAvailabilityFlat` is the flat alternating list of the same strings: twice as
long, with `flat[2i]` and `flat[2i+1]` the start and end of `objects[i]`. -/
theorem toAvailability_spec (rs : List Range) (i : Nat) :
    (toAvailabilityObjects rs).length = rs.length ∧
    (toAvailabilityObjects rs)[i]? = rs[i]?.map (fun r =>
      { start := toISOString (startOfDay r.s), stop := toISOString (endOfDay r.e) }) ∧
    toAvailabilityFlat rs = (toAvailabilityObjects rs).flatMap (fun o => [o.start, o.stop]) ∧
    (toAvailabilityFlat rs).length = 2 * rs.length ∧
    (toAvailabilityFlat rs)[2 * i]? = (toAvailabilityObjects rs)[i]?.map (fun o => o.start) ∧
    (toAvailabilityFlat rs)[2 * i + 1]? =
      (toAvailabilityObjects rs)[i]?.map (fun o => o.stop) := by
  refine ⟨by simp [toAvailabilityObjects], by simp [toAvailabilityObjects], ?_, ?_,
    (toAvailabilityFlat_getElem rs i).1, (toAvailabilityFlat_getElem rs i).2⟩
  · induction rs with
    | nil => rfl
    | cons r t ih =>
      simp only [toAvailabilityFlat, toAvailabilityObjects, List.flatMap_cons,
        List.map_cons] at ih ⊢
      rw [ih]
  · induction rs with
    | nil => rfl
    | cons r t ih =>
      simp only [toAvailabilityFlat, List.flatMap_cons, List.length_append,
        List.length_cons, List.length_nil] at ih ⊢
      rw [ih]; omega

/-! ## Reversed ranges -/

/-- Counterexample to C19: the reversed entry `{start: 2025-01-05, end:
2025-01-01}` is dropped, not swapped, so its `availRanges` is empty and
differs from the one of `{start: 2025-01-01, end: 2025-01-05}`. -/
theorem availRanges_reversed_not_swapped :
    availRanges [⟨some (jan2025 5), some (jan2025 1)⟩] = [] ∧
    availRanges [⟨some (jan2025 1), some (jan2025 5)⟩] = [⟨jan2025 1, endOfDay (jan2025 5)⟩] ∧
    availRanges [⟨some (jan2025 5), some (jan2025 1)⟩] ≠
      availRanges [⟨some (jan2025 1), some (jan2025 5)⟩] := by
  decide

/-- C19 (amended): the guest ingest drops a reversed entry: for all days `a`
before `b`, the `availRanges` of `[{start: b, end: a}]` is empty, while the
one of `[{start: a, end: b}]` is the single range from the start of day `a` to
the end of day `b`; a reversed entry leaves the result of the other entries
unchanged. -/
theorem availRanges_reversed_dropped (a b : Int) (h : dayOf a < dayOf b)
    (raw1 raw2 : List RawEntry) :
    availRanges [⟨some b, some a⟩] = [] ∧
    availRanges [⟨some a, some b⟩] = [⟨startOfDay a, endOfDay b⟩] ∧
    availRanges (raw1 ++ ⟨some b, some a⟩ :: raw2) = availRanges (raw1 ++ raw2) := by
  have e1 : toRange ⟨some b, some a⟩ = none := by
    simp only [toRange]
    rw [if_neg]
    simp only [endOfDay, startOfDay, dayOf, msPerDay] at *; omega
  have e2 : toRange ⟨some a, some b⟩ = some ⟨startOfDay a, endOfDay b⟩ := by
    simp only [toRange]
    rw [if_pos]
    simp only [endOfDay, startOfDay, dayOf, msPerDay] at *; omega
  refine ⟨?_, ?_, ?_⟩
  · simp [availRanges, e1, sortByStart, mergeLoop]
  · simp [availRanges, e2, sortByStart, mergeLoop_cons, mergeAcc]
  · simp [availRanges, List.filterMap_append, e1]

/-- Witness of C19 (amended): `a` = 2025-01-01, `b` = 2025-01-05. -/
theorem availRanges_reversed_dropped_witness :
    availRanges [⟨some (jan2025 5), some (jan2025 1)⟩] = [] ∧
    availRanges [⟨some (jan2025 1), some (jan2025 5)⟩] =
      [⟨startOfDay (jan2025 1), endOfDay (jan2025 5)⟩] ∧
    availRanges ([] ++ ⟨some (jan2025 5), some (jan2025 1)⟩ :: []) = availRanges ([] ++ []) :=
  availRanges_reversed_dropped (jan2025 1) (jan2025 5) (by decide) [] []

theorem orient_swap (s e : Int) : orient ⟨e, s⟩ = orient ⟨s, e⟩ := by
  unfold orient
  simp only
  by_cases h1 : e > s
  · rw [if_pos h1, if_neg (by omega)]
  · by_cases h2 : s > e
    · rw [if_neg h1, if_pos h2]
    · rw [if_neg h1, if_neg h2]
      have : s = e := by omega
      subst this
      rfl

/-- C20: every pair returned by `normalizeRanges` has its start not after its
end, and reversing the two endpoints of any input pair does not change the
result. -/
theorem normalizeRanges_orientation (xs ys : List PickerValue) (s e : Int) :
    (∀ r ∈ normalizeRanges xs, r.s ≤ r.e) ∧
    normalizeRanges (xs ++ some (some e, some s) :: ys) =
      normalizeRanges (xs ++ some (some s, some e) :: ys) := by
  refine ⟨(normalizeRanges_normalized xs).2, ?_⟩
  unfold normalizeRanges
  simp only [List.filterMap_append, List.filterMap_cons, complete, List.map_append,
    List.map_cons, orient_swap s e]

/-- Witness of C20: the pair 2026-01-12, 2026-01-10 given reversed. -/
theorem normalizeRanges_orientation_witness :
    (⟨jan2026 10, jan2026 12⟩ : Range).s ≤ (⟨jan2026 10, jan2026 12⟩ : Range).e :=
  (normalizeRanges_orientation [some (some (jan2026 12), some (jan2026 10))] [] 0 0).1
    ⟨jan2026 10, jan2026 12⟩ (by decide)

/-! ## Guest side: invalid entries and the days of the availability -/

theorem toRange_eq_none_iff (en : RawEntry) :
    toRange en = none ↔
      (en.start = none ∨ en.stop = none ∨
        ∃ a b, en.start = some a ∧ en.stop = some b ∧ endOfDay b ≤ startOfDay a) := by
  obtain ⟨st, sp⟩ := en
  cases st with
  | none => simp [toRange]
  | some a =>
    cases sp with
    | none => simp [toRange]
    | some b =>
      simp only [toRange, reduceCtorEq, false_or, Option.some.injEq, exists_and_left,
        exists_eq_left', ite_eq_right_iff, imp_false, not_lt, gt_iff_lt]

/-- An entry whose start or end is an invalid date, or whose end raised to the
end of its day is not after its start floored to the start of its day, is
dropped by the filter: the result is the one of the list without it. -/
theorem availRanges_drop_invalid (raw1 raw2 : List RawEntry) (en : RawEntry)
    (h : en.start = none ∨ en.stop = none ∨
      ∃ a b, en.start = some a ∧ en.stop = some b ∧ endOfDay b ≤ startOfDay a) :
    toRange en = none ∧
    availRanges (raw1 ++ en :: raw2) = availRanges (raw1 ++ raw2) := by
  have e1 := (toRange_eq_none_iff en).mpr h
  refine ⟨e1, ?_⟩
  simp [availRanges, List.filterMap_append, e1]

/-- Example: an entry with an invalid end between two valid ones is dropped. -/
theorem availRanges_drop_invalid_witness :
    toRange ⟨some (jan2025 3), none⟩ = none ∧
    availRanges ([⟨some (jan2025 1), some (jan2025 2)⟩] ++ ⟨some (jan2025 3), none⟩ ::
        [⟨some (jan2025 8), some (jan2025 9)⟩]) =
      availRanges ([⟨some (jan2025 1), some (jan2025 2)⟩] ++
        [⟨some (jan2025 8), some (jan2025 9)⟩]) :=
  availRanges_drop_invalid _ _ ⟨some (jan2025 3), none⟩ (Or.inr (Or.inl rfl))

theorem availRanges_keeps_days (raw : List RawEntry) (d : Int)
    (h : raw.any (fun en => entryContainsDay en d) = true) :
    inAvail (availRanges raw) d = true := by
  rw [List.any_eq_true] at h
  obtain ⟨en, hen, hd⟩ := h
  unfold entryContainsDay at hd
  split at hd
  · rename_i x hx
    simp only [Bool.and_eq_true, decide_eq_true_eq] at hd
    obtain ⟨r, hr, h1, h2⟩ := availRanges_covers raw en x hen hx
    unfold inAvail
    rw [List.any_eq_true]
    exact ⟨r, hr, by simp only [Bool.and_eq_true, decide_eq_true_eq]; omega⟩
  · cases hd

/-- C26: `availRanges` never loses a day that a valid raw entry contains, but
it can add one: for 2025-01-01..2025-01-05 and 2025-01-07..2025-01-10 the day
2025-01-06 lies in no raw entry and yet inside the merged range, and
`disabledDate` enables it. -/
theorem availRanges_days (raw : List RawEntry) (d : Int) :
    (raw.any (fun en => entryContainsDay en d) = true → inAvail (availRanges raw) d = true) ∧
    ([⟨some (jan2025 1), some (jan2025 5)⟩, ⟨some (jan2025 7), some (jan2025 10)⟩].any
      (fun en => entryContainsDay en (jan2025 6)) = false ∧
    inAvail (availRanges [⟨some (jan2025 1), some (jan2025 5)⟩,
      ⟨some (jan2025 7), some (jan2025 10)⟩]) (jan2025 6) = true ∧
    disabledDate (availRanges [⟨some (jan2025 1), some (jan2025 5)⟩,
      ⟨some (jan2025 7), some (jan2025 10)⟩]) (jan2025 6) = false) :=
  ⟨availRanges_keeps_days raw d, by decide⟩

/-- Witness of C26: 2025-01-03, a day of the first entry, is kept. -/
theorem availRanges_days_witness :
    inAvail (availRanges [⟨some (jan2025 1), some (jan2025 5)⟩,
      ⟨some (jan2025 7), some (jan2025 10)⟩]) (jan2025 3) = true :=
  (availRanges_days [⟨some (jan2025 1), some (jan2025 5)⟩,
    ⟨some (jan2025 7), some (jan2025 10)⟩] (jan2025 3)).1 (by decide)

/-- C27: the host adds 2025-01-01..2025-01-05 and 2025-01-07..2025-01-10, all
four dates picked at 10:00; the confirmed set keeps the two ranges, and the
guest side `availRanges` of the published objects is the single range
2025-01-01..2025-01-10. -/
theorem publish_ingest_roundtrip_merges :
    (addAll [some (some (jan2025 1 + 36000000), some (jan2025 5 + 36000000)),
        some (some (jan2025 7 + 36000000), some (jan2025 10 + 36000000))]
      (onOpenPublish 7 initState)).pubRanges =
      [⟨jan2025 1 + 36000000, jan2025 5 + 36000000⟩,
        ⟨jan2025 7 + 36000000, jan2025 10 + 36000000⟩] ∧
    availRanges (loadAvailability (toAvailabilityObjects
      (addAll [some (some (jan2025 1 + 36000000), some (jan2025 5 + 36000000)),
          some (some (jan2025 7 + 36000000), some (jan2025 10 + 36000000))]
        (onOpenPublish 7 initState)).pubRanges)) =
      [⟨jan2025 1, endOfDay (jan2025 10)⟩] := by
  decide

/-- C29: the listing page filter is never more permissive than the detail
page check: for a selection whose check-in day is not after its check-out day,
if `isRangeCovered` holds on the raw availability then `isSelectedInsideAvail`
holds on its `availRanges`. -/
theorem isRangeCovered_imp_inside (raw : List RawEntry) (s e : Int) (hse : dayOf s ≤ dayOf e)
    (h : isRangeCovered (some raw) (some s) (some e) = true) :
    isSelectedInsideAvail (some (some s, some e)) (availRanges raw) = true := by
  simp only [isRangeCovered, List.any_eq_true] at h
  obtain ⟨en, hen, hcov⟩ := h
  obtain ⟨st, sp⟩ := en
  cases st with
  | none => simp at hcov
  | some a =>
    cases sp with
    | none => simp at hcov
    | some b =>
      simp only [Bool.and_eq_true, decide_eq_true_eq, ge_iff_le] at hcov
      have hx : toRange ⟨some a, some b⟩ = some ⟨startOfDay a, endOfDay b⟩ := by
        simp only [toRange]
        rw [if_pos]
        simp only [endOfDay, startOfDay, dayOf, msPerDay] at *; omega
      obtain ⟨r, hr, h1, h2⟩ := availRanges_covers raw _ _ hen hx
      rw [isSelectedInsideAvail_complete]
      refine ⟨r, hr, ?_, ?_⟩
      · simp only at h1; omega
      · simp only [endOfDay, startOfDay, dayOf, msPerDay] at *; omega

/-- Witness of C29: the stay 2025-01-03..2025-01-05 in 2025-01-01..2025-01-10. -/
theorem isRangeCovered_imp_inside_witness :
    isSelectedInsideAvail (some (some (jan2025 3), some (jan2025 5)))
      (availRanges [⟨some (jan2025 1), some (jan2025 10)⟩]) = true :=
  isRangeCovered_imp_inside [⟨some (jan2025 1), some (jan2025 10)⟩] (jan2025 3) (jan2025 5)
    (by decide) (by decide)

/-- C30: every night of a covered stay is an enabled day: if
`isSelectedInsideAvail` holds for the selection, then `disabledDate d` is false
for every day `d` from the check-in day up to the day before check-out. -/
theorem covered_nights_enabled (avail : List Range) (ci co d : Int)
    (h : isSelectedInsideAvail (some (some ci, some co)) avail = true)
    (h1 : dayOf ci ≤ dayOf d) (h2 : dayOf d < dayOf co) :
    disabledDate avail d = false := by
  rw [isSelectedInsideAvail_complete] at h
  obtain ⟨r, hr, h3, h4⟩ := h
  unfold disabledDate
  split_ifs with h0
  · rfl
  · simp only [Bool.not_eq_false', List.any_eq_true, Bool.and_eq_true, decide_eq_true_eq]
    refine ⟨r, hr, ?_, ?_⟩ <;> (simp only [startOfDay, dayOf, msPerDay] at *; omega)

/-- Witness of C30: the night of 2025-01-04 of the stay 2025-01-03..2025-01-05. -/
theorem covered_nights_enabled_witness :
    disabledDate (availRanges [⟨some (jan2025 1), some (jan2025 10)⟩]) (jan2025 4) = false :=
  covered_nights_enabled (availRanges [⟨some (jan2025 1), some (jan2025 10)⟩])
    (jan2025 3) (jan2025 5) (jan2025 4) (by decide) (by decide) (by decide)

/-! ## Host side: adding one range at a time -/

theorem mergeAcc_head (l : List Range) : ∀ y : Range,
    ∃ c cs, mergeAcc y l = c :: cs ∧ c.s = y.s := by
  induction l with
  | nil => intro y; exact ⟨y, [], rfl, rfl⟩
  | cons z t ih =>
    intro y
    rw [mergeAcc]
    split_ifs with h
    · obtain ⟨c, cs, h1, h2⟩ := ih (absorb y z)
      exact ⟨c, cs, h1, by rw [h2, absorb_s]⟩
    · exact ⟨y, _, rfl, rfl⟩

/-- Reading `y` then a range `z` close to it is reading the merged range. -/
theorem mergeAcc_absorb_head (cur y z : Range) (l : List Range)
    (h : z.s - y.e < 2 * msPerDay) :
    mergeAcc cur (absorb y z :: l) = mergeAcc cur (y :: z :: l) := by
  by_cases hc : y.s - cur.e < 2 * msPerDay
  · rw [mergeAcc_cons_near _ _ _ (by rw [absorb_s]; exact hc), mergeAcc_cons_near _ _ _ hc,
      mergeAcc_cons_near _ _ _ (by rw [absorb_e]; omega)]
    congr 1
    apply Range.eq_of
    · simp only [absorb_s]
    · simp only [absorb_e]; omega
  · rw [mergeAcc_cons_far _ _ _ (by rw [absorb_s]; exact hc), mergeAcc_cons_far _ _ _ hc,
      mergeAcc_cons_near _ _ _ h]

/-- Reading the output of the loop on `y :: l` is reading `y :: l`. -/
theorem mergeAcc_compress (l : List Range) : ∀ (y cur : Range),
    mergeAcc cur (mergeAcc y l) = mergeAcc cur (y :: l) := by
  induction l with
  | nil => intro y cur; rfl
  | cons z t ih =>
    intro y cur
    by_cases h : z.s - y.e < 2 * msPerDay
    · rw [mergeAcc_cons_near y z t h, ih (absorb y z) cur]
      exact mergeAcc_absorb_head cur y z t h
    · rw [mergeAcc_cons_far y z t h]
      exact mergeAcc_cons_congr cur y _ _ (fun c => ih z c)

theorem orderedInsert_le (r b : Range) (l : List Range) (h : r.s ≤ b.s) :
    List.orderedInsert byStart r (b :: l) = r :: b :: l :=
  List.orderedInsert_of_le byStart l h

theorem orderedInsert_gt (r b : Range) (l : List Range) (h : ¬ r.s ≤ b.s) :
    List.orderedInsert byStart r (b :: l) = b :: List.orderedInsert byStart r l := by
  simp only [List.orderedInsert]
  rw [if_neg]
  exact h

theorem orderedInsert_front (r : Range) (l : List Range) (h : ∀ x ∈ l, r.s ≤ x.s) :
    List.orderedInsert byStart r l = r :: l := by
  cases l with
  | nil => rfl
  | cons b t => exact orderedInsert_le r b t (h b (List.mem_cons_self _ _))

/-- Inserting `r` into the output of the loop, from its second range on, and
reading on is inserting `r` into the input and reading on. -/
theorem mergeAcc_insert (r : Range) (l : List Range) : ∀ (y c : Range) (cs : List Range),
    (y :: l).Sorted byStart → mergeAcc y l = c :: cs →
    mergeAcc c (List.orderedInsert byStart r cs) =
      mergeAcc y (List.orderedInsert byStart r l) := by
  induction l with
  | nil =>
    intro y c cs _ h
    simp only [mergeAcc, List.cons.injEq] at h
    obtain ⟨rfl, rfl⟩ := h
    rfl
  | cons z t ih =>
    intro y c cs hs h
    have hs2 := List.sorted_cons.mp hs
    have hs3 := List.sorted_cons.mp hs2.2
    have hyz : y.s ≤ z.s := hs2.1 z (List.mem_cons_self _ _)
    by_cases hn : z.s - y.e < 2 * msPerDay
    · rw [mergeAcc_cons_near y z t hn] at h
      have hs4 : (absorb y z :: t).Sorted byStart :=
        List.sorted_cons.mpr ⟨fun b hb => by
          have := hs2.1 b (List.mem_cons_of_mem _ hb)
          unfold byStart at *
          rw [absorb_s]; exact this, hs3.2⟩
      rw [ih (absorb y z) c cs hs4 h]
      by_cases hr : r.s ≤ z.s
      · rw [orderedInsert_le r z t hr, orderedInsert_front r t (fun x hx =>
          le_trans hr (hs3.1 x hx)),
          mergeAcc_cons_near _ _ _ (by rw [absorb_e]; omega),
          mergeAcc_cons_near y r _ (by omega),
          mergeAcc_cons_near _ z _ (by rw [absorb_e]; omega), absorb_right_comm]
      · rw [orderedInsert_gt r z t hr, mergeAcc_cons_near y z _ hn]
    · rw [mergeAcc_cons_far y z t hn] at h
      simp only [List.cons.injEq] at h
      obtain ⟨rfl, rfl⟩ := h
      obtain ⟨d, ds, hd, hds⟩ := mergeAcc_head t z
      by_cases hr : r.s ≤ z.s
      · rw [orderedInsert_le r z t hr, hd, orderedInsert_le r d ds (by omega), ← hd]
        exact mergeAcc_cons_congr y r _ _ (fun c => mergeAcc_compress t z c)
      · rw [orderedInsert_gt r z t hr, hd, orderedInsert_gt r d ds (by omega),
          mergeAcc_cons_far y d _ (by omega), mergeAcc_cons_far y z _ hn,
          ih z d ds hs2.2 hd]

/-- Inserting `r` into the output of the loop on a sorted list and running the
loop is inserting `r` into the list and running the loop. -/
theorem mergeLoop_insert (r : Range) (l : List Range) (hs : l.Sorted byStart) :
    mergeLoop (List.orderedInsert byStart r (mergeLoop l)) =
      mergeLoop (List.orderedInsert byStart r l) := by
  cases l with
  | nil => rfl
  | cons y t =>
    rw [mergeLoop_cons]
    obtain ⟨c, cs, hc, hcs⟩ := mergeAcc_head t y
    by_cases hr : r.s ≤ y.s
    · rw [orderedInsert_le r y t hr, hc, orderedInsert_le r c cs (by omega), ← hc,
        mergeLoop_cons, mergeLoop_cons]
      exact mergeAcc_compress t y r
    · rw [orderedInsert_gt r y t hr, hc, orderedInsert_gt r c cs (by omega),
        mergeLoop_cons, mergeLoop_cons]
      exact mergeAcc_insert r t y c cs hs hc

theorem mergeLoop_sort_snoc (l : List Range) (r : Range) (hl : ∀ x ∈ l, x.s ≤ x.e)
    (hr : r.s ≤ r.e) :
    mergeLoop (sortByStart (l ++ [r])) =
      mergeLoop (List.orderedInsert byStart r (sortByStart l)) := by
  have hp : (sortByStart (l ++ [r])).Perm (List.orderedInsert byStart r (sortByStart l)) := by
    refine (List.perm_insertionSort byStart _).trans ?_
    refine List.perm_append_comm.trans ?_
    refine List.Perm.trans ?_ (List.perm_orderedInsert byStart r _).symm
    exact List.Perm.cons r (List.perm_insertionSort byStart l).symm
  refine mergeLoop_perm _ _ hp (sorted_sortByStart _)
    ((sorted_sortByStart l).orderedInsert r _) ?_
  intro x hx
  rcases List.mem_append.mp (mem_sortByStart.mp hx) with h | h
  · exact hl x h
  · rw [List.mem_singleton] at h; subst h; exact hr

/-- Normalizing the normalized set with one more range is normalizing the
whole input with that range. -/
theorem merge_sort_snoc (l : List Range) (r : Range) (hl : ∀ x ∈ l, x.s ≤ x.e)
    (hr : r.s ≤ r.e) :
    mergeLoop (sortByStart (mergeLoop (sortByStart l) ++ [r])) =
      mergeLoop (sortByStart (l ++ [r])) := by
  have hn := normalized_merge_sort l hl
  have hfix : sortByStart (mergeLoop (sortByStart l)) = mergeLoop (sortByStart l) :=
    List.Sorted.insertionSort_eq hn.sorted
  rw [mergeLoop_sort_snoc _ r hn.2 hr, mergeLoop_sort_snoc l r hl hr, hfix]
  exact mergeLoop_insert r _ (sorted_sortByStart l)

theorem normalizeRanges_snoc_complete (xs : List PickerValue) (s e : Int) :
    normalizeRanges ((normalizeRanges xs).map ofRange ++ [some (some s, some e)]) =
      normalizeRanges (xs ++ [some (some s, some e)]) := by
  have hv : ∀ x ∈ (xs.filterMap complete).map orient, x.s ≤ x.e := by
    intro x hx
    obtain ⟨q, _, rfl⟩ := List.mem_map.mp hx
    exact orient_le q
  have hn := normalizeRanges_normalized xs
  have := merge_sort_snoc _ (orient ⟨s, e⟩) hv (orient_le _)
  simp only [normalizeRanges, List.filterMap_append, filterMap_complete_ofRange,
    List.map_append, List.filterMap_cons, List.filterMap_nil, complete, List.map_cons,
    List.map_nil] at hn ⊢
  rw [map_orient_of_le _ hn.2]
  exact this

theorem addOneRange_setTempRange_pubRanges (v : PickerValue) (st : HostState)
    (xs : List PickerValue) (h : st.pubRanges = normalizeRanges xs) :
    (addOneRange (setTempRange v st)).pubRanges = normalizeRanges (xs ++ [v]) := by
  rcases hv : v with _ | ⟨_ | s, _ | e⟩
  · simpa [addOneRange, setTempRange, normalizeRanges, List.filterMap_append, complete] using h
  · simpa [addOneRange, setTempRange, normalizeRanges, List.filterMap_append, complete] using h
  · simpa [addOneRange, setTempRange, normalizeRanges, List.filterMap_append, complete] using h
  · simpa [addOneRange, setTempRange, normalizeRanges, List.filterMap_append, complete] using h
  · simp only [addOneRange, setTempRange, h]
    exact normalizeRanges_snoc_complete xs s e

theorem addAll_pubRanges (vs : List PickerValue) (st : HostState) (h : st.pubRanges = []) :
    (addAll vs st).pubRanges = normalizeRanges vs := by
  induction vs using List.reverseRecOn with
  | nil => simpa [addAll, normalizeRanges, sortByStart, mergeLoop] using h
  | append_singleton vs v ih =>
    have : addAll (vs ++ [v]) st = addOneRange (setTempRange v (addAll vs st)) := by
      simp [addAll, List.foldl_append]
    rw [this]
    exact addOneRange_setTempRange_pubRanges v _ vs ih

/-- C28: merge on insert equals batch normalization: from an empty confirmed
set, picking and adding the values of any finite sequence one at a time with
`addOneRange` leaves exactly `normalizeRanges` of the whole sequence; in
particular for a sequence of complete ranges. -/
theorem addAll_eq_normalizeRanges (vs : List PickerValue) (rs : List Range) (st : HostState)
    (h : st.pubRanges = []) :
    (addAll vs st).pubRanges = normalizeRanges vs ∧
    (addAll (rs.map ofRange) st).pubRanges = normalizeRanges (rs.map ofRange) :=
  ⟨addAll_pubRanges vs st h, addAll_pubRanges _ st h⟩

/-- Witness of C28: three ranges added after `onOpenPublish`, the second one
reversed, the third one bridging the first two. -/
theorem addAll_eq_normalizeRanges_witness :
    (addAll [some (some (jan2026 1), some (jan2026 3)), some (some (jan2026 12), some (jan2026 9)),
        some (some (jan2026 4), some (jan2026 8))] (onOpenPublish 7 initState)).pubRanges =
      normalizeRanges [some (some (jan2026 1), some (jan2026 3)),
        some (some (jan2026 12), some (jan2026 9)), some (some (jan2026 4), some (jan2026 8))] ∧
    (addAll (([] : List Range).map ofRange) (onOpenPublish 7 initState)).pubRanges =
      normalizeRanges (([] : List Range).map ofRange) :=
  addAll_eq_normalizeRanges _ [] (onOpenPublish 7 initState) rfl

/-! ## Ratings and listing details -/

theorem foldl_add_scoreOf (l : List (Option Review)) : ∀ init : Int,
    l.foldl (fun a b => a + scoreOf b) init = init + (l.map scoreOf).sum := by
  induction l with
  | nil => intro init; simp
  | cons x t ih => intro init; simp only [List.foldl_cons, ih, List.map_cons, List.sum_cons]; omega

/-- C25: `getRatingAvg` is 0 when the reviews value is not an array or is
empty, and otherwise the sum of the scores divided by the number of reviews, a
`null` review or a missing score counting as 0. -/
theorem getRatingAvg_spec (rs : List (Option Review)) (v : Int) :
    getRatingAvg none = 0 ∧
    getRatingAvg (some []) = 0 ∧
    (rs ≠ [] → getRatingAvg (some rs) = (((rs.map scoreOf).sum : Int) : ℚ) / (rs.length : ℚ)) ∧
    scoreOf none = 0 ∧ scoreOf (some ⟨none⟩) = 0 ∧ scoreOf (some ⟨some v⟩) = v := by
  refine ⟨rfl, rfl, ?_, rfl, rfl, rfl⟩
  intro h
  have hl : rs.length ≠ 0 := by
    intro h0; exact h (List.length_eq_zero.mp h0)
  simp only [getRatingAvg, Option.getD_some, hl, if_false, foldl_add_scoreOf, zero_add]

/-- Witness of C25: scores 4, missing and 5 have mean 3. -/
theorem getRatingAvg_spec_witness :
    getRatingAvg (some [some ⟨some 4⟩, some ⟨none⟩, some ⟨some 5⟩]) = 3 :=
  ((getRatingAvg_spec [some ⟨some 4⟩, some ⟨none⟩, some ⟨some 5⟩] 0).2.2.1
    (by decide)).trans (by norm_num [scoreOf])

theorem foldl_detailMap_none (reqs : List (Item × DetailResponse)) (k : Nat) :
    ∀ m : Nat → Option Listing,
    (reqs.foldl (fun m p =>
      match p.2 with
      | some (some listing) => mapSet m p.1.id listing
      | _ => m) m) k = none ↔
    (m k = none ∧ ∀ p ∈ reqs, p.1.id = k → ∀ l, p.2 ≠ some (some l)) := by
  induction reqs with
  | nil => intro m; simp
  | cons p t ih =>
    intro m
    rw [List.foldl_cons, ih]
    rcases hp : p.2 with _ | _ | l
    · simp [hp]
    · simp [hp]
    · simp only [mapSet, List.mem_cons, forall_eq_or_imp, hp, ne_eq, Option.some.injEq]
      by_cases hk : k = p.1.id
      · simp [hk]
      · simp only [hk, if_false]
        constructor
        · rintro ⟨h1, h2⟩
          exact ⟨h1, fun h => absurd h.symm hk, h2⟩
        · rintro ⟨h1, _, h2⟩
          exact ⟨h1, h2⟩

theorem detailMap_none (reqs : List (Item × DetailResponse)) (k : Nat) :
    detailMap reqs k = none ↔ ∀ p ∈ reqs, p.1.id = k → ∀ l, p.2 ≠ some (some l) := by
  unfold detailMap
  rw [foldl_detailMap_none]
  simp

theorem enrichWithDetails_getElem (reqs : List (Item × DetailResponse)) (i : Nat) :
    (enrichWithDetails reqs)[i]? = reqs[i]?.map (fun p =>
      match detailMap reqs p.1.id with
      | none => p.1
      | some det => enrich p.1 det) := by
  simp [enrichWithDetails]

/-- C23: two items with the same id 1; the request of the first one fails and
the request of the second one returns a listing priced 80; the first item is
returned enriched, with the price 80, not unchanged. -/
theorem enrichWithDetails_same_id_enriched :
    (enrichWithDetails
      [(⟨1, none, none, some 50, none, none, none, none, none⟩, none),
       (⟨1, none, none, some 50, none, none, none, none, none⟩,
        some (some ⟨none, none, some 80, none, none⟩))])[0]? =
      some ⟨1, some ⟨none, none, none⟩, some [], some 80, none, none, none, none, none⟩ ∧
    (enrichWithDetails
      [(⟨1, none, none, some 50, none, none, none, none, none⟩, none),
       (⟨1, none, none, some 50, none, none, none, none, none⟩,
        some (some ⟨none, none, some 80, none, none⟩))])[0]? ≠
      some ⟨1, none, none, some 50, none, none, none, none, none⟩ := by
  decide

/-- The list returned by `enrichWithDetails` has the length of its input, the
item at each position being the input item at that position or its enriched
form; an item is returned unchanged when no request made for its id yields a
listing, in particular, when the ids are pairwise distinct, when its own
request fails or yields no listing. -/
theorem enrichWithDetails_unchanged (reqs : List (Item × DetailResponse)) (i : Nat)
    (p : Item × DetailResponse) (hp : reqs[i]? = some p) :
    (enrichWithDetails reqs).length = reqs.length ∧
    ((enrichWithDetails reqs)[i]? = some p.1 ∨
      ∃ det, (enrichWithDetails reqs)[i]? = some (enrich p.1 det)) ∧
    ((∀ q ∈ reqs, q.1.id = p.1.id → ∀ l, q.2 ≠ some (some l)) →
      (enrichWithDetails reqs)[i]? = some p.1) ∧
    ((reqs.map (fun q => q.1.id)).Nodup → (∀ l, p.2 ≠ some (some l)) →
      (enrichWithDetails reqs)[i]? = some p.1) := by
  have hget := enrichWithDetails_getElem reqs i
  rw [hp, Option.map_some'] at hget
  have hnone : (∀ q ∈ reqs, q.1.id = p.1.id → ∀ l, q.2 ≠ some (some l)) →
      (enrichWithDetails reqs)[i]? = some p.1 := by
    intro h
    rw [hget, (detailMap_none reqs p.1.id).mpr h]
  refine ⟨by simp [enrichWithDetails], ?_, hnone, ?_⟩
  · rw [hget]
    cases detailMap reqs p.1.id with
    | none => exact Or.inl rfl
    | some det => exact Or.inr ⟨det, rfl⟩
  · intro hnd hfail
    apply hnone
    intro q hq hid l hl
    have hpm : p ∈ reqs := List.getElem?_mem hp
    have hinj := List.inj_on_of_nodup_map hnd hq hpm hid
    rw [hinj] at hl
    exact hfail l hl

/-- Example: items 1 and 2 with distinct ids; the request for item 1 fails and
item 1 is returned unchanged. -/
theorem enrichWithDetails_unchanged_witness :
    (enrichWithDetails
      [(⟨1, none, none, some 50, none, none, none, none, none⟩, none),
       (⟨2, none, none, some 60, none, none, none, none, none⟩,
        some (some ⟨none, none, some 80, none, none⟩))])[0]? =
      some ⟨1, none, none, some 50, none, none, none, none, none⟩ :=
  (enrichWithDetails_unchanged
    [(⟨1, none, none, some 50, none, none, none, none, none⟩, none),
     (⟨2, none, none, some 60, none, none, none, none, none⟩,
      some (some ⟨none, none, some 80, none, none⟩))] 0
    (⟨1, none, none, some 50, none, none, none, none, none⟩, none) rfl).2.2.2
    (by decide) (by intro l h; cases h)

/-! ## Amenities -/

theorem trimChars_eq (l : List Char) :
    trimChars l = (l.dropWhile isJsWhiteSpace).rdropWhile isJsWhiteSpace := rfl

theorem trimChars_getLast (l : List Char) (c : Char) (h : (trimChars l).getLast? = some c) :
    isJsWhiteSpace c = false := by
  have hne : trimChars l ≠ [] := by
    intro h0; rw [h0] at h; cases h
  rw [List.getLast?_eq_getLast _ hne, Option.some.injEq] at h
  have := List.rdropWhile_last_not (p := isJsWhiteSpace) (l := l.dropWhile isJsWhiteSpace) hne
  have h3 : (List.rdropWhile isJsWhiteSpace (List.dropWhile isJsWhiteSpace l)).getLast hne = c := h
  rw [h3] at this
  simpa using this

theorem trimChars_head (l : List Char) (c : Char) (h : (trimChars l).head? = some c) :
    isJsWhiteSpace c = false := by
  have hne : trimChars l ≠ [] := by
    intro h0; rw [h0] at h; cases h
  have hpre : trimChars l <+: l.dropWhile isJsWhiteSpace :=
    List.rdropWhile_prefix isJsWhiteSpace _
  rw [List.head?_eq_head hne, Option.some.injEq] at h
  rw [← h, hpre.head hne]
  exact List.head_dropWhile_not _ _ _

theorem trimChars_of_trimmed (l : List Char)
    (h1 : ∀ c, l.head? = some c → isJsWhiteSpace c = false)
    (h2 : ∀ c, l.getLast? = some c → isJsWhiteSpace c = false) : trimChars l = l := by
  have e1 : l.dropWhile isJsWhiteSpace = l := by
    cases l with
    | nil => rfl
    | cons a t =>
      have := h1 a rfl
      simp [List.dropWhile_cons, this]
  rw [trimChars_eq, e1, List.rdropWhile_eq_self_iff]
  intro hl
  have := h2 (l.getLast hl) (List.getLast?_eq_getLast _ hl)
  simp [this]

theorem jsTrim_idempotent (s : String) : jsTrim (jsTrim s) = jsTrim s := by
  unfold jsTrim
  simp only
  rw [trimChars_of_trimmed _ (trimChars_head s.data) (trimChars_getLast s.data)]

theorem setAdd_mem (acc : List String) (x y : String) :
    y ∈ setAdd acc x ↔ y ∈ acc ∨ y = x := by
  unfold setAdd
  split_ifs with h
  · constructor
    · exact Or.inl
    · rintro (h1 | rfl)
      · exact h1
      · exact h
  · simp

theorem setAdd_nodup (acc : List String) (x : String) (h : acc.Nodup) :
    (setAdd acc x).Nodup := by
  unfold setAdd
  split_ifs with hx
  · exact h
  · exact List.Nodup.append h (List.nodup_singleton x) (by
      intro a ha hb
      rw [List.mem_singleton] at hb
      subst hb
      exact hx ha)

theorem foldl_setAdd_nodup (xs : List String) : ∀ acc : List String, acc.Nodup →
    (xs.foldl setAdd acc).Nodup := by
  induction xs with
  | nil => intro acc h; exact h
  | cons x t ih => intro acc h; exact ih _ (setAdd_nodup acc x h)

theorem foldl_setAdd_mem (xs : List String) (y : String) : ∀ acc : List String,
    y ∈ xs.foldl setAdd acc ↔ y ∈ acc ∨ y ∈ xs := by
  induction xs with
  | nil => intro acc; simp
  | cons x t ih =>
    intro acc
    rw [List.foldl_cons, ih, setAdd_mem, List.mem_cons]
    tauto

/-- The first value stays first and later copies of it are ignored. -/
theorem foldl_setAdd_cons (x : String) (xs : List String) : ∀ acc : List String, x ∉ acc →
    xs.foldl setAdd (x :: acc) =
      x :: (xs.filter (fun y => decide (y ≠ x))).foldl setAdd acc := by
  induction xs with
  | nil => intro acc _; rfl
  | cons y t ih =>
    intro acc hx
    by_cases hy : y = x
    · subst hy
      have e1 : setAdd (y :: acc) y = y :: acc := by simp [setAdd]
      rw [List.foldl_cons, e1, ih acc hx]
      simp
    · have e1 : setAdd (x :: acc) y = x :: setAdd acc y := by
        unfold setAdd
        by_cases hm : y ∈ acc
        · simp [hm]
        · simp [hm, hy]
      have hx2 : x ∉ setAdd acc y := by
        rw [setAdd_mem]
        rintro (h | h)
        · exact hx h
        · exact hy h.symm
      rw [List.foldl_cons, e1, ih _ hx2]
      simp [hy]

theorem arrayFromSet_cons (x : String) (xs : List String) :
    arrayFromSet (x :: xs) = x :: arrayFromSet (xs.filter (fun y => decide (y ≠ x))) := by
  unfold arrayFromSet
  rw [List.foldl_cons]
  have : setAdd [] x = [x] := by simp [setAdd]
  rw [this]
  exact foldl_setAdd_cons x xs [] (by simp)

theorem arrayFromSet_sublist (n : Nat) : ∀ xs : List String, xs.length ≤ n →
    (arrayFromSet xs).Sublist xs := by
  induction n with
  | zero =>
    intro xs h
    have : xs = [] := List.length_eq_zero.mp (Nat.le_zero.mp h)
    subst this
    exact List.Sublist.refl _
  | succ n ih =>
    intro xs h
    cases xs with
    | nil => exact List.Sublist.refl _
    | cons x t =>
      rw [arrayFromSet_cons]
      have hlen : (t.filter (fun y => decide (y ≠ x))).length ≤ n :=
        le_trans (List.length_filter_le _ _) (by simpa using h)
      exact ((ih _ hlen).trans (List.filter_sublist _)).cons₂ x

/-- C24: `sanitizeAmenities` is `[]` for a value that is not an array; for an
array it is the list of the trimmed non-empty string entries without
duplicates, each at the place of its first occurrence, cut to 50 entries: no
duplicate, no empty string, no leading or trailing white space, at most 50
elements. -/
theorem sanitizeAmenities_spec (arr : List JsValue) (x : String) (xs : List String) :
    sanitizeAmenities none = [] ∧
    sanitizeAmenities (some arr) =
      (arrayFromSet ((arr.map cleanAmenity).filter (fun s => decide (s ≠ "")))).take 50 ∧
    (sanitizeAmenities (some arr)).Nodup ∧
    (sanitizeAmenities (some arr)).length ≤ 50 ∧
    (sanitizeAmenities (some arr)).Sublist
      ((arr.map cleanAmenity).filter (fun s => decide (s ≠ ""))) ∧
    (∀ s ∈ sanitizeAmenities (some arr),
      s ≠ "" ∧ jsTrim s = s ∧
      (∀ c, s.data.head? = some c → isJsWhiteSpace c = false) ∧
      (∀ c, s.data.getLast? = some c → isJsWhiteSpace c = false) ∧
      ∃ t, JsValue.str t ∈ arr ∧ s = jsTrim t) ∧
    (∀ t, JsValue.str t ∈ arr → jsTrim t ≠ "" →
      jsTrim t ∈ arrayFromSet ((arr.map cleanAmenity).filter (fun s => decide (s ≠ "")))) ∧
    arrayFromSet (x :: xs) = x :: arrayFromSet (xs.filter (fun y => decide (y ≠ x))) := by
  have hsub : (arrayFromSet ((arr.map cleanAmenity).filter (fun s => decide (s ≠ "")))).Sublist
      ((arr.map cleanAmenity).filter (fun s => decide (s ≠ ""))) :=
    arrayFromSet_sublist _ _ (le_refl _)
  have hnd : (arrayFromSet ((arr.map cleanAmenity).filter (fun s => decide (s ≠ "")))).Nodup :=
    foldl_setAdd_nodup _ [] List.nodup_nil
  refine ⟨rfl, rfl, ?_, ?_, ?_, ?_, ?_, arrayFromSet_cons x xs⟩
  · exact hnd.sublist (List.take_sublist _ _)
  · simp only [sanitizeAmenities, List.length_take]; omega
  · exact (List.take_sublist _ _).trans hsub
  · intro s hs
    have hs2 : s ∈ (arr.map cleanAmenity).filter (fun s => decide (s ≠ "")) :=
      hsub.subset ((List.take_sublist _ _).subset hs)
    rw [List.mem_filter, List.mem_map] at hs2
    obtain ⟨⟨v, hv, hvs⟩, hne⟩ := hs2
    have hne2 : s ≠ "" := by simpa using hne
    cases v with
    | other => exact absurd hvs.symm hne2
    | str t =>
      simp only [cleanAmenity] at hvs
      subst hvs
      exact ⟨hne2, jsTrim_idempotent t, trimChars_head t.data, trimChars_getLast t.data,
        t, hv, rfl⟩
  · intro t ht hne
    unfold arrayFromSet
    rw [foldl_setAdd_mem]
    right
    rw [List.mem_filter, List.mem_map]
    exact ⟨⟨JsValue.str t, ht, rfl⟩, by simpa using hne⟩

/-- Witness of C24: a padded duplicate, a number and a blank string. -/
theorem sanitizeAmenities_spec_witness :
    jsTrim "wifi" ≠ "" ∧ jsTrim (jsTrim "wifi") = jsTrim "wifi" ∧
    sanitizeAmenities (some [JsValue.str " wifi ", JsValue.other, JsValue.str "pool",
      JsValue.str "  ", JsValue.str "wifi"]) = ["wifi", "pool"] :=
  ⟨by decide,
   ((sanitizeAmenities_spec [JsValue.str "wifi"] "" []).2.2.2.2.2.1 (jsTrim "wifi")
      (by decide)).2.1,
   by decide⟩

/-! ## The revenue series -/

theorem addAt_length (xs : List Int) : ∀ (i : Nat) (v : Int),
    (addAt xs i v).length = xs.length := by
  induction xs with
  | nil => intro i v; rfl
  | cons x t ih =>
    intro i v
    cases i with
    | zero => rfl
    | succ i => simp [addAt, ih]

theorem bookingStep_length (today : Int) (priceMap : String → Option Int) (dailyAdd : List Int)
    (bk : Booking) : (bookingStep today priceMap dailyAdd bk).length = dailyAdd.length := by
  unfold bookingStep
  split
  · simp only
    split_ifs
    · exact addAt_length _ _ _
    · rfl
    · rfl
  · rfl

theorem foldl_bookingStep_length (today : Int) (priceMap : String → Option Int)
    (bs : List Booking) : ∀ dailyAdd : List Int,
    (bs.foldl (bookingStep today priceMap) dailyAdd).length = dailyAdd.length := by
  induction bs with
  | nil => intro d; rfl
  | cons b t ih => intro d; rw [List.foldl_cons, ih, bookingStep_length]

theorem reverseCumulative_headD (l : List Int) : (reverseCumulative l).headD 0 = l.sum := by
  induction l with
  | nil => rfl
  | cons x t ih =>
    simp only [reverseCumulative, List.foldr_cons, List.headD_cons, List.sum_cons] at ih ⊢
    rw [ih]

theorem reverseCumulative_cons (x : Int) (t : List Int) :
    reverseCumulative (x :: t) = (x :: t).sum :: reverseCumulative t := by
  have := reverseCumulative_headD t
  simp only [reverseCumulative, List.foldr_cons, List.sum_cons] at this ⊢
  rw [this]

theorem reverseCumulative_length (l : List Int) : (reverseCumulative l).length = l.length := by
  induction l with
  | nil => rfl
  | cons x t ih => rw [reverseCumulative_cons, List.length_cons, ih, List.length_cons]

/-- Entry `i` of the reverse cumulative sum is the sum of the entries of
`dailyAdd` from index `i` to the last one. -/
theorem reverseCumulative_getElem (l : List Int) : ∀ i : Nat, i < l.length →
    (reverseCumulative l)[i]? = some ((l.drop i).sum) := by
  induction l with
  | nil => intro i h; cases h
  | cons x t ih =>
    intro i h
    rw [reverseCumulative_cons]
    cases i with
    | zero => simp
    | succ i =>
      rw [List.getElem?_cons_succ, List.drop_succ_cons]
      exact ih i (by simpa using h)

/-- C22: `buildSeriesFromBookings` returns 31 points with `d` = 0..30, and
`series[i].amount` is the sum of the day buckets from `i` days ago back to 30
days ago, not from `i` days ago to today: with one accepted booking of 100
checking in today, `series[0].amount` is 100 and every other amount is 0, while
the revenue from day 30 to today is 100. -/
theorem buildSeriesFromBookings_spec (now : Int) (bs : List Booking)
    (priceMap : String → Option Int) (i : Nat) :
    (buildSeriesFromBookings now bs priceMap).map (fun p => p.d) = List.range 31 ∧
    (buildSeriesFromBookings now bs priceMap).length = 31 ∧
    (i < 31 → (buildSeriesFromBookings now bs priceMap)[i]?.map (fun p => p.amount) =
      some (((bs.foldl (bookingStep (startOfDay now) priceMap)
        (List.replicate 31 0)).drop i).sum)) ∧
    ((buildSeriesFromBookings (jan2026 20 + 3600000)
        [⟨"1", some (jan2026 20), some (jan2026 21), some 100⟩] (fun _ => none)).map
        (fun p => p.amount) = 100 :: List.replicate 30 0 ∧
      revenueFromDayToToday (jan2026 20 + 3600000)
        [⟨"1", some (jan2026 20), some (jan2026 21), some 100⟩] (fun _ => none) 30 = 100) := by
  have hlen : (bs.foldl (bookingStep (startOfDay now) priceMap) (List.replicate 31 0)).length
      = 31 := by
    rw [foldl_bookingStep_length, List.length_replicate]
  have hlen2 := reverseCumulative_length
    (bs.foldl (bookingStep (startOfDay now) priceMap) (List.replicate 31 0))
  rw [hlen] at hlen2
  refine ⟨?_, ?_, ?_, by decide⟩
  · unfold buildSeriesFromBookings
    simp only [List.map_zipWith]
    apply List.ext_getElem?
    intro n
    simp only [List.getElem?_zipWith]
    by_cases hn : n < 31
    · have h1 : (List.range 31)[n]? = some n := by
        rw [List.getElem?_range hn]
      obtain ⟨a, ha⟩ : ∃ a, (reverseCumulative (bs.foldl (bookingStep (startOfDay now) priceMap)
          (List.replicate 31 0)))[n]? = some a := by
        rw [reverseCumulative_getElem _ n (by omega)]
        exact ⟨_, rfl⟩
      rw [h1, ha]
    · have h1 : (List.range 31)[n]? = none := by
        rw [List.getElem?_eq_none_iff, List.length_range]; omega
      rw [h1]
  · unfold buildSeriesFromBookings
    simp only [List.length_zipWith, List.length_range, hlen2, min_self]
  · intro hi
    unfold buildSeriesFromBookings
    simp only [List.getElem?_zipWith]
    rw [List.getElem?_range hi, reverseCumulative_getElem _ i (by omega)]
    rfl

/-- Witness of C22: the amount at index 1 for one booking that checks in
today is the sum of the buckets 1 to 30, which is 0. -/
theorem buildSeriesFromBookings_spec_witness :
    (buildSeriesFromBookings (jan2026 20 + 3600000)
      [⟨"1", some (jan2026 20), some (jan2026 21), some 100⟩] (fun _ => none))[1]?.map
        (fun p => p.amount) = some 0 :=
  ((buildSeriesFromBookings_spec (jan2026 20 + 3600000)
      [⟨"1", some (jan2026 20), some (jan2026 21), some 100⟩] (fun _ => none) 1).2.2.1
      (by decide)).trans (by decide)

/-! ## Guest side: the raw availability array -/

/-- On an array whose elements all have fields, `availRangesOf` is
`availRanges` of the parsed entries. -/
theorem readEntries_obj (now : Int) (l : List (JsDate × JsDate)) :
    readEntries now (l.map fun p => JsEntry.obj p.1 p.2) =
      some (l.map fun p => { start := dayjsValue now p.1, stop := dayjsValue now p.2 }) := by
  induction l with
  | nil => rfl
  | cons p t ih => simp [readEntries, readEntry, ih]

/-- A `null` element anywhere in the array makes the computation throw. -/
theorem readEntries_nullish (now : Int) (l1 l2 : List JsEntry) :
    readEntries now (l1 ++ JsEntry.nullish :: l2) = none := by
  induction l1 with
  | nil => simp [readEntries, readEntry]
  | cons r t ih =>
    rw [List.cons_append, readEntries]
    cases readEntry now r with
    | none => rfl
    | some en => simp only [ih]

/-- C21: the guest ingest drops an entry whose end is `null` or an unparseable
string, but at the time 2025-01-03T01:00 the entry `{start: 2025-01-01}`, whose
end is missing, is kept as the range 2025-01-01..2025-01-03 (`dayjs(undefined)`
is the current time), and the array `[null]` makes the computation throw. -/
theorem availRangesOf_bad_entries :
    availRangesOf (jan2025 3 + 3600000)
      (some [JsEntry.obj (JsDate.date (jan2025 1)) JsDate.missing]) =
      some [⟨jan2025 1, endOfDay (jan2025 3)⟩] ∧
    availRangesOf (jan2025 3 + 3600000) (some []) = some [] ∧
    availRangesOf (jan2025 3 + 3600000)
      (some [JsEntry.obj JsDate.missing JsDate.missing]) =
      some [⟨jan2025 3, endOfDay (jan2025 3)⟩] ∧
    availRangesOf (jan2025 3 + 3600000) (some [JsEntry.nullish]) = none ∧
    availRangesOf (jan2025 3 + 3600000)
      (some [JsEntry.obj (JsDate.date (jan2025 1)) (JsDate.date (jan2025 2)),
        JsEntry.nullish]) = none ∧
    availRangesOf (jan2025 3 + 3600000)
      (some [JsEntry.obj (JsDate.date (jan2025 1)) JsDate.null]) = some [] ∧
    availRangesOf (jan2025 3 + 3600000)
      (some [JsEntry.obj (JsDate.date (jan2025 1)) JsDate.unparseable]) = some [] ∧
    availRangesOf (jan2025 3 + 3600000) none = some [] := by
  decide

end Airbirb
